import Mathlib

/-!
Verification of the log-structured key/value store (kv.rs).

Files on disk are modelled as lists of natural numbers (bytes). The store
state mirrors the fields of `KvStore` in kv.rs; the file-system registry of
readers and the on-disk files are merged into one association list `logs`,
because the source keeps them in sync (every created file immediately gets a
reader, and compaction removes both together). Buffered-writer positions are
not modelled separately: the current log is created fresh at every open, so
the writer position always equals the file length.
-/

namespace Kvs

/-! ### Byte-level primitives -/

/-- Little-endian encoding of `n` into `w` bytes (truncating, as Rust
`to_le_bytes` does on a fixed-width integer). -/
def leBytes : Nat → Nat → List Nat
  | 0, _ => []
  | w + 1, n => n % 256 :: leBytes w (n / 256)

/-- Little-endian value of a byte list (as Rust `from_le_bytes`). -/
def leVal : List Nat → Nat
  | [] => 0
  | b :: t => b + 256 * leVal t

/-- The reflected IEEE CRC-32 polynomial, as used by the crc32fast crate. -/
def crc32Poly : Nat := 0xEDB88320

def crc32Step (c : Nat) : Nat :=
  if c % 2 = 1 then (c / 2) ^^^ crc32Poly else c / 2

def crc32Byte (c b : Nat) : Nat :=
  crc32Step^[8] (c ^^^ b)

/-- CRC-32 (IEEE) of a byte list: init 0xFFFFFFFF, reflected polynomial,
final xor, matching crc32fast `Hasher::new/update/finalize`. -/
def crc32 (l : List Nat) : Nat :=
  (l.foldl crc32Byte 0xFFFFFFFF) ^^^ 0xFFFFFFFF

/-- UTF-8 encoding of one character (`str::as_bytes` in the source). -/
def utf8Char (c : Char) : List Nat :=
  let n := c.toNat
  if n < 0x80 then [n]
  else if n < 0x800 then
    [0xC0 ||| (n >>> 6), 0x80 ||| (n &&& 0x3F)]
  else if n < 0x10000 then
    [0xE0 ||| (n >>> 12), 0x80 ||| ((n >>> 6) &&& 0x3F), 0x80 ||| (n &&& 0x3F)]
  else
    [0xF0 ||| (n >>> 18), 0x80 ||| ((n >>> 12) &&& 0x3F),
      0x80 ||| ((n >>> 6) &&& 0x3F), 0x80 ||| (n &&& 0x3F)]

/-- UTF-8 bytes of a string. -/
def utf8Bytes (s : String) : List Nat :=
  (s.data.map utf8Char).flatten

/-! ### Commands and records (kvs_command::Command / KvsCommand) -/

def CURRENT_SCHEMA_VERSION : Nat := 1

def COMPACTION_THRESHOLD : Nat := 1024 * 1024

/-- The oneof command payload (`kvs_command::Command`). -/
inductive Command where
  | set (key value : String)
  | remove (key : String)
deriving DecidableEq

/-- The record envelope (`KvsCommand`): header fields plus the optional
command payload, exactly the fields of the protobuf message. -/
structure KvsCommand where
  timestamp : Nat
  sequence_number : Nat
  checksum : Nat
  version : Nat
  command : Option Command
deriving DecidableEq

/-- `Checksumable::get_fields_for_checksum`: UTF-8 bytes of the key,
followed for `Set` by the UTF-8 bytes of the value. -/
def Command.get_fields_for_checksum : Command → List Nat
  | .set k v => utf8Bytes k ++ utf8Bytes v
  | .remove k => utf8Bytes k

/-- `Checksumable::calculate_checksum`. -/
def Command.calculate_checksum (c : Command) : Nat :=
  crc32 c.get_fields_for_checksum

/-- `KvsCommand::verify_checksum`: false when the command is absent. -/
def KvsCommand.verify_checksum (c : KvsCommand) : Bool :=
  match c.command with
  | some cmd => c.checksum == cmd.calculate_checksum
  | none => false

/-- `KvsCommand::set`. The timestamp argument models the wall clock
(`SystemTime::now`), reduced mod 2^64 as `as_secs` yields a u64. -/
def KvsCommand.set (key value : String) (sequence ts : Nat) : KvsCommand :=
  let command := Command.set key value
  { timestamp := ts % 2 ^ 64
    sequence_number := sequence
    checksum := command.calculate_checksum
    version := CURRENT_SCHEMA_VERSION
    command := some command }

/-- `KvsCommand::remove`. -/
def KvsCommand.remove (key : String) (sequence ts : Nat) : KvsCommand :=
  let command := Command.remove key
  { timestamp := ts % 2 ^ 64
    sequence_number := sequence
    checksum := command.calculate_checksum
    version := CURRENT_SCHEMA_VERSION
    command := some command }

/-! ### Record codec

Modelled from the spec: the generated protobuf codec (`kvs_command.rs`,
produced by prost at build time) is not part of src/, so the body encoding
is modelled from the spec, section 4.1/6: a structured body carrying
timestamp (u64), sequence_number (u64), checksum (u32), version (u32) and a
tagged optional command whose strings are length-prefixed. Field widths are
fixed little-endian; string payloads are stored as 32-bit code points, an
encoding choice the spec leaves to the (unavailable) generated code. -/

/-- Modelled from the spec: length-prefixed string payload of the body. -/
def encStr (s : String) : List Nat :=
  leBytes 4 s.length ++ (s.data.map fun c => leBytes 4 c.toNat).flatten

/-- Modelled from the spec: tagged optional command (0 absent, 1 Set,
2 Remove). -/
def encodeCmd : Option Command → List Nat
  | none => [0]
  | some (.set k v) => 1 :: (encStr k ++ encStr v)
  | some (.remove k) => 2 :: encStr k

/-- Modelled from the spec: `KvsCommand::encode_to_vec`. -/
def encode (c : KvsCommand) : List Nat :=
  leBytes 8 c.timestamp ++ leBytes 8 c.sequence_number ++
    leBytes 4 c.checksum ++ leBytes 4 c.version ++ encodeCmd c.command

/-- Split off the first `n` bytes, failing on a short input. -/
def takeN (n : Nat) (l : List Nat) : Option (List Nat × List Nat) :=
  if n ≤ l.length then some (l.take n, l.drop n) else none

/-- Modelled from the spec: decode `n` 32-bit code points. -/
def decChars : Nat → List Nat → Option (List Char × List Nat)
  | 0, l => some ([], l)
  | n + 1, l =>
    match takeN 4 l with
    | none => none
    | some (cb, rest) =>
      match decChars n rest with
      | none => none
      | some (cs, rest') => some (Char.ofNat (leVal cb) :: cs, rest')

/-- Modelled from the spec: decode a length-prefixed string payload. -/
def decStr (l : List Nat) : Option (String × List Nat) :=
  match takeN 4 l with
  | none => none
  | some (lb, rest) =>
    match decChars (leVal lb) rest with
    | none => none
    | some (cs, rest') => some (⟨cs⟩, rest')

/-- Modelled from the spec: decode the tagged optional command. -/
def decodeCmd (l : List Nat) : Option (Option Command × List Nat) :=
  match l with
  | 0 :: rest => some (none, rest)
  | 1 :: rest =>
    match decStr rest with
    | none => none
    | some (k, r1) =>
      match decStr r1 with
      | none => none
      | some (v, r2) => some (some (Command.set k v), r2)
  | 2 :: rest =>
    match decStr rest with
    | none => none
    | some (k, r1) => some (some (Command.remove k), r1)
  | _ => none

/-- Modelled from the spec: `KvsCommand::decode`, consuming the whole body. -/
def decode (l : List Nat) : Option KvsCommand :=
  match takeN 8 l with
  | none => none
  | some (tsb, r1) =>
    match takeN 8 r1 with
    | none => none
    | some (sqb, r2) =>
      match takeN 4 r2 with
      | none => none
      | some (ckb, r3) =>
        match takeN 4 r3 with
        | none => none
        | some (vrb, r4) =>
          match decodeCmd r4 with
          | none => none
          | some (cmd, r5) =>
            if r5 = [] then
              some { timestamp := leVal tsb, sequence_number := leVal sqb
                     checksum := leVal ckb, version := leVal vrb
                     command := cmd }
            else none

/-- The framed bytes of one record: 4-byte little-endian length prefix
(truncated from the body length, as `len() as u32`) followed by the body. -/
def frameOf (c : KvsCommand) : List Nat :=
  leBytes 4 (encode c).length ++ encode c

/-! ### Errors, outcomes, store state -/

/-- `KvsError`, payloads dropped. -/
inductive KvsError where
  | ioFail
  | serde
  | KeyNotFound
  | UnexpectedCommandType
  | Deserialize
  | CorruptedData
deriving DecidableEq

/-- Result of an operation: normal return, error return, or a panic from an
`expect` in the source. -/
inductive Outcome (α : Type) where
  | ok (a : α)
  | err (e : KvsError)
  | panicked
deriving DecidableEq

/-- `CommandPos`: generation, start offset and framed length of a record. -/
structure CommandPos where
  gen : Nat
  pos : Nat
  len : Nat
deriving DecidableEq

abbrev Idx := List (String × CommandPos)

abbrev Logs := List (Nat × List Nat)

/-- Association-list lookup (BTreeMap / HashMap `get`). -/
def alookup {α β : Type} [DecidableEq α] : List (α × β) → α → Option β
  | [], _ => none
  | (a, b) :: t, k => if k = a then some b else alookup t k

/-- Ordered insert-or-replace into an association list with sorted keys. -/
def sInsert {α β : Type} [LinearOrder α] : List (α × β) → α → β → List (α × β)
  | [], k, c => [(k, c)]
  | (a, b) :: t, k, c =>
    if k < a then (k, c) :: (a, b) :: t
    else if k = a then (k, c) :: t
    else (a, b) :: sInsert t k c

/-- Erase the (first) entry of a key from an association list. -/
def sErase {α β : Type} [LinearOrder α] : List (α × β) → α → List (α × β)
  | [], _ => []
  | (a, b) :: t, k => if k = a then t else (a, b) :: sErase t k

/-- Ordered insert-or-replace (BTreeMap `insert`), keeping keys sorted. -/
def idxInsert (i : Idx) (k : String) (c : CommandPos) : Idx := sInsert i k c

/-- Ordered erase (BTreeMap `remove`). -/
def idxErase (i : Idx) (k : String) : Idx := sErase i k

/-- Append bytes to the file of an existing generation (the current log). -/
def logsApp : Logs → Nat → List Nat → Logs
  | [], _, _ => []
  | (g, f) :: t, gen, bytes =>
    if gen = g then (g, f ++ bytes) :: t else (g, f) :: logsApp t gen bytes

/-- Insert a fresh generation, keeping generations sorted
(`new_log_file`: create the file and register its reader). -/
def logsInsert (l : Logs) (g : Nat) (f : List Nat) : Logs := sInsert l g f

/-- The in-memory state of `KvStore`. -/
structure KvStore where
  logs : Logs
  current_gen : Nat
  index : Idx
  uncompacted : Nat
  current_sequence : Option Nat
deriving DecidableEq

/-- The bytes of the current log file (writer position = its length). -/
def currentFile (s : KvStore) : List Nat :=
  (alookup s.logs s.current_gen).getD []

/-- Random-access read of `n` bytes at `pos` (seek + `read_exact`). -/
def readExact (file : List Nat) (pos n : Nat) : Option (List Nat) :=
  if pos + n ≤ file.length then some ((file.drop pos).take n) else none

/-! ### Operations -/

/-- `KvStore::get_v2`. -/
def get_v2 (s : KvStore) (key : String) : Outcome (Option String) :=
  match alookup s.index key with
  | none => .ok none
  | some cp =>
    match alookup s.logs cp.gen with
    | none => .panicked
    | some file =>
      match readExact file cp.pos 4 with
      | none => .err .ioFail
      | some lenb =>
        match readExact file (cp.pos + 4) (leVal lenb) with
        | none => .err .ioFail
        | some body =>
          match decode body with
          | none => .err .Deserialize
          | some cmd =>
            if cmd.verify_checksum then
              match cmd.command with
              | some (.set _ v) => .ok (some v)
              | _ => .err .UnexpectedCommandType
            else .err .CorruptedData

/-- The compaction loop of `KvStore::compact`: walk the index entries in
key order, copy each framed record verbatim into the compaction file and
retarget the entry. -/
def compactLoop (logs : Logs) (cgen : Nat) :
    Idx → Nat → Idx → List Nat → Outcome (Idx × List Nat)
  | [], _, accIdx, accBytes => .ok (accIdx, accBytes)
  | (k, cp) :: rest, new_pos, accIdx, accBytes =>
    match alookup logs cp.gen with
    | none => .panicked
    | some file =>
      match readExact file cp.pos 4 with
      | none => .err .ioFail
      | some lenb =>
        match readExact file (cp.pos + 4) (leVal lenb) with
        | none => .err .ioFail
        | some body =>
          compactLoop logs cgen rest (new_pos + (4 + leVal lenb))
            (accIdx ++ [(k, ⟨cgen, new_pos, 4 + leVal lenb⟩)])
            (accBytes ++ (lenb ++ body))

/-- `KvStore::compact`. On the error paths of the loop the mid-loop state
is not modelled (the loop is proved to succeed on every reachable state);
the pre-loop state is returned there. -/
def compact (s : KvStore) : Outcome Unit × KvStore :=
  let cgen := s.current_gen + 1
  let s1 : KvStore := { s with current_gen := s.current_gen + 2,
                               logs := logsInsert s.logs (s.current_gen + 2) [] }
  let s2 : KvStore := { s1 with logs := logsInsert s1.logs cgen [] }
  match compactLoop s2.logs cgen s2.index 0 [] [] with
  | .panicked => (.panicked, s2)
  | .err e => (.err e, s2)
  | .ok (idx', bytes) =>
    let s3 : KvStore := { s2 with logs := logsApp s2.logs cgen bytes, index := idx' }
    let s4 : KvStore := { s3 with logs := s3.logs.filter fun p => decide (cgen ≤ p.1) }
    (.ok (), { s4 with uncompacted := 0 })

/-- After a mutation: trigger compaction when `uncompacted` strictly
exceeds the threshold. -/
def maybeCompact (s : KvStore) : Outcome Unit × KvStore :=
  if s.uncompacted > COMPACTION_THRESHOLD then compact s else (.ok (), s)

/-- `KvStore::set_v2` without the trailing compaction check. -/
def set_v2_nc (ts : Nat) (key value : String) (s : KvStore) : KvStore :=
  let sequence := (s.current_sequence.getD 0 + 1) % 2 ^ 64
  let cmd := KvsCommand.set key value sequence ts
  let pos := (currentFile s).length
  let logs' := logsApp s.logs s.current_gen (frameOf cmd)
  let len := ((alookup logs' s.current_gen).getD []).length - pos
  match alookup s.index key with
  | some old =>
    { logs := logs', current_gen := s.current_gen
      index := idxInsert s.index key ⟨s.current_gen, pos, len⟩
      uncompacted := s.uncompacted + old.len
      current_sequence := some sequence }
  | none =>
    { logs := logs', current_gen := s.current_gen
      index := idxInsert s.index key ⟨s.current_gen, pos, len⟩
      uncompacted := s.uncompacted
      current_sequence := some sequence }

/-- `KvStore::set_v2`. -/
def set_v2 (ts : Nat) (key value : String) (s : KvStore) : Outcome Unit × KvStore :=
  maybeCompact (set_v2_nc ts key value s)

/-- `KvStore::remove_v2`. -/
def remove_v2 (ts : Nat) (key : String) (s : KvStore) : Outcome Unit × KvStore :=
  if (alookup s.index key).isSome then
    let sequence := (s.current_sequence.getD 0 + 1) % 2 ^ 64
    let cmd := KvsCommand.remove key sequence ts
    let pos := (currentFile s).length
    let logs' := logsApp s.logs s.current_gen (frameOf cmd)
    let s1 : KvStore := { s with logs := logs', current_sequence := some sequence }
    match alookup s1.index key with
    | none => (.panicked, s1)
    | some old =>
      maybeCompact { s1 with
        index := idxErase s1.index key
        uncompacted := s1.uncompacted + old.len + ((currentFile s1).length - pos) }
  else (.err .KeyNotFound, s)

/-! ### Replay (load_v2) and open -/

/-- `load_v2`: scan one file from offset zero, folding records into the
index and accumulating per-file staleness and the highest sequence number.
A failed 4-byte prefix read (fewer than 4 bytes remaining) terminates the
loop; every later failure is an error. -/
def loadAux (gen : Nat) :
    List Nat → Nat → Idx → Nat → Nat → Except KvsError (Idx × Nat × Nat)
  | b0 :: b1 :: b2 :: b3 :: rest, pos, index, uncompacted, highest =>
    let msg_len := leVal [b0, b1, b2, b3]
    if h : msg_len ≤ rest.length then
      match decode (rest.take msg_len) with
      | none => .error .Deserialize
      | some cmd =>
        if cmd.verify_checksum then
          match cmd.command with
          | some (.set k _) =>
            match alookup index k with
            | some old =>
              loadAux gen (rest.drop msg_len) (pos + (4 + msg_len))
                (idxInsert index k ⟨gen, pos, 4 + msg_len⟩)
                (uncompacted + old.len) (max highest cmd.sequence_number)
            | none =>
              loadAux gen (rest.drop msg_len) (pos + (4 + msg_len))
                (idxInsert index k ⟨gen, pos, 4 + msg_len⟩)
                uncompacted (max highest cmd.sequence_number)
          | some (.remove k) =>
            match alookup index k with
            | some old =>
              loadAux gen (rest.drop msg_len) (pos + (4 + msg_len))
                (idxErase index k)
                (uncompacted + old.len + (4 + msg_len)) (max highest cmd.sequence_number)
            | none =>
              loadAux gen (rest.drop msg_len) (pos + (4 + msg_len))
                (idxErase index k)
                (uncompacted + (4 + msg_len)) (max highest cmd.sequence_number)
          | none => .error .UnexpectedCommandType
        else .error .CorruptedData
    else .error .ioFail
  | _, _, index, uncompacted, highest => .ok (index, uncompacted, highest)
termination_by l => l.length
decreasing_by all_goals (simp only [List.length_drop, List.length_cons]; omega)

/-- `load_v2` entry point: replay one whole file. -/
def load_v2 (gen : Nat) (file : List Nat) (index : Idx) :
    Except KvsError (Idx × Nat × Nat) :=
  loadAux gen file 0 index 0 0

/-- Replay every log in ascending generation order, threading the index and
accumulating total staleness and the overall highest sequence number. -/
def loadAll : Logs → Idx → Nat → Nat → Except KvsError (Idx × Nat × Nat)
  | [], index, uncompacted, highest => .ok (index, uncompacted, highest)
  | (g, file) :: rest, index, uncompacted, highest =>
    match load_v2 g file index with
    | .error e => .error e
    | .ok (index', u, sq) => loadAll rest index' (uncompacted + u) (max highest sq)

/-- Insertion-sort step on generation numbers (`sorted_gen_list`). -/
def gsInsert (p : Nat × List Nat) : Logs → Logs
  | [] => [p]
  | q :: t => if p.1 ≤ q.1 then p :: q :: t else q :: gsInsert p t

/-- Sort directory entries by generation, ascending (`sorted_gen_list`). -/
def gsSort : Logs → Logs
  | [] => []
  | p :: t => gsInsert p (gsSort t)

/-- `KvStore::open`: the argument is the directory content, an association
list from generation number to file bytes. -/
def openStore (files : Logs) : Except KvsError KvStore :=
  let sorted := gsSort files
  match loadAll sorted [] 0 0 with
  | .error e => .error e
  | .ok (index, uncompacted, highest) =>
    let current_gen := (sorted.map Prod.fst).getLast?.getD 0 + 1
    .ok { logs := sorted ++ [(current_gen, [])]
          current_gen := current_gen
          index := index
          uncompacted := uncompacted
          current_sequence := some highest }

/-! ### Operation sequences -/

/-- One public mutating operation on an open store. -/
inductive Op where
  | set (ts : Nat) (key value : String)
  | remove (ts : Nat) (key : String)
  | compact
deriving DecidableEq

/-- Run one operation, keeping the store state (a failed remove leaves the
state unchanged, as in the source where the error returns early). -/
def runOp (s : KvStore) : Op → KvStore
  | .set ts k v => (set_v2 ts k v s).2
  | .remove ts k => (remove_v2 ts k s).2
  | .compact => (Kvs.compact s).2

def runOps (s : KvStore) (ops : List Op) : KvStore :=
  ops.foldl runOp s

/-- The record size bound of the format (spec section 4.1: the 4-byte
length prefix bounds any single record body to below 2^32 bytes). -/
def OpOk : Op → Prop
  | .set _ k v => 4 * k.length + 4 * v.length + 33 < 2 ^ 32
  | .remove _ k => 4 * k.length + 29 < 2 ^ 32
  | .compact => True

/-- The abstract history semantics of section 8 of the spec: the value of a
key is the value of the last set not followed by a remove. -/
def specStep (m : String → Option String) : Op → String → Option String
  | .set _ k v => fun k' => if k' = k then some v else m k'
  | .remove _ k => fun k' => if k' = k then none else m k'
  | .compact => m

def specMap (ops : List Op) : String → Option String :=
  ops.foldl specStep fun _ => none

/-! ### Codec lemmas -/

theorem leBytes_length (w n : Nat) : (leBytes w n).length = w := by
  induction w generalizing n with
  | zero => rfl
  | succ w ih => simp [leBytes, ih]

theorem leVal_leBytes (w n : Nat) : leVal (leBytes w n) = n % 2 ^ (8 * w) := by
  induction w generalizing n with
  | zero => simp [leBytes, leVal, Nat.mod_one]
  | succ w ih =>
    have h8 : 8 * (w + 1) = 8 * w + 8 := by ring
    rw [leBytes, leVal, ih, h8, pow_add]
    rw [show ((2 : Nat) ^ (8 * w) * 2 ^ 8) = 256 * 2 ^ (8 * w) by ring]
    exact (Nat.mod_mul).symm

theorem takeN_exact (l1 l2 : List Nat) : takeN l1.length (l1 ++ l2) = some (l1, l2) := by
  simp [takeN, List.take_left, List.drop_left]

theorem takeN_exact' {n : Nat} (l1 l2 : List Nat) (h : l1.length = n) :
    takeN n (l1 ++ l2) = some (l1, l2) :=
  h ▸ takeN_exact l1 l2

theorem takeN_leBytes (w n : Nat) (l2 : List Nat) :
    takeN w (leBytes w n ++ l2) = some (leBytes w n, l2) :=
  takeN_exact' _ _ (leBytes_length w n)

theorem char_toNat_lt (c : Char) : c.toNat < 2 ^ (8 * 4) := by
  simpa [Char.toNat, UInt32.toNat, show 8 * 4 = 32 by norm_num] using c.val.toBitVec.isLt

theorem decChars_enc (cs : List Char) (r : List Nat) :
    decChars cs.length ((cs.map fun c => leBytes 4 c.toNat).flatten ++ r) = some (cs, r) := by
  induction cs with
  | nil => simp [decChars]
  | cons c cs ih =>
    rw [List.map_cons, List.flatten_cons, List.append_assoc, List.length_cons, decChars]
    simp only [takeN_leBytes, ih, leVal_leBytes, Nat.mod_eq_of_lt (char_toNat_lt c),
      Char.ofNat_toNat]

theorem decStr_enc (s : String) (r : List Nat) (h : s.length < 2 ^ 32) :
    decStr (encStr s ++ r) = some (s, r) := by
  obtain ⟨cs⟩ := s
  have hl : cs.length < 2 ^ 32 := h
  rw [encStr, decStr, List.append_assoc]
  have h2 : leVal (leBytes 4 (String.length ⟨cs⟩)) = cs.length := by
    rw [leVal_leBytes]
    exact Nat.mod_eq_of_lt (by simpa using hl)
  simp only [takeN_leBytes, h2]
  rw [decChars_enc cs r]

/-- String payload length bounds needed for the length prefixes to be exact. -/
def CmdOk : Option Command → Prop
  | some (.set k v) => k.length < 2 ^ 32 ∧ v.length < 2 ^ 32
  | some (.remove k) => k.length < 2 ^ 32
  | none => True

theorem decode_encode (c : KvsCommand) (hts : c.timestamp < 2 ^ 64)
    (hsq : c.sequence_number < 2 ^ 64) (hck : c.checksum < 2 ^ 32)
    (hvr : c.version < 2 ^ 32) (hcmd : CmdOk c.command) :
    decode (encode c) = some c := by
  obtain ⟨ts, sq, ck, vr, cmd⟩ := c
  simp only at hts hsq hck hvr hcmd
  have hm : ∀ x w, x < 2 ^ (8 * w) → leVal (leBytes w x) = x := by
    intro x w hx
    rw [leVal_leBytes, Nat.mod_eq_of_lt hx]
  rw [encode, decode]
  simp only [List.append_assoc, takeN_leBytes]
  rw [hm ts 8 (by simpa using hts), hm sq 8 (by simpa using hsq),
    hm ck 4 (by simpa using hck), hm vr 4 (by simpa using hvr)]
  match cmd, hcmd with
  | none, _ => simp [encodeCmd, decodeCmd]
  | some (.set k v), hkv =>
    simp only [encodeCmd, List.cons_append, decodeCmd, List.append_assoc]
    rw [← List.append_nil (encStr v)]
    simp only [decStr_enc k _ hkv.1, decStr_enc v _ hkv.2]
    simp
  | some (.remove k), hk =>
    simp only [encodeCmd, List.cons_append, decodeCmd]
    rw [← List.append_nil (encStr k)]
    simp only [decStr_enc k _ hk]
    simp

/-! ### Checksum bounds and record construction lemmas -/

theorem crc32Step_lt {c : Nat} (h : c < 2 ^ 32) : crc32Step c < 2 ^ 32 := by
  unfold crc32Step
  split
  · exact Nat.xor_lt_two_pow (by omega) (by norm_num [crc32Poly])
  · omega

theorem crc32Step_iterate_lt (n : Nat) {c : Nat} (h : c < 2 ^ 32) :
    crc32Step^[n] c < 2 ^ 32 := by
  induction n generalizing c with
  | zero => simpa
  | succ n ih => rw [Function.iterate_succ_apply]; exact ih (crc32Step_lt h)

theorem crc32Byte_lt {c b : Nat} (hc : c < 2 ^ 32) (hb : b < 2 ^ 32) :
    crc32Byte c b < 2 ^ 32 :=
  crc32Step_iterate_lt 8 (Nat.xor_lt_two_pow hc hb)

theorem crc32_lt (l : List Nat) (hl : ∀ b ∈ l, b < 2 ^ 32) : crc32 l < 2 ^ 32 := by
  unfold crc32
  refine Nat.xor_lt_two_pow ?_ (by norm_num)
  have main : ∀ (t : List Nat) (a : Nat), a < 2 ^ 32 → (∀ b ∈ t, b < 2 ^ 32) →
      t.foldl crc32Byte a < 2 ^ 32 := by
    intro t
    induction t with
    | nil => intro a ha _; simpa
    | cons x t ih =>
      intro a ha hb
      exact ih _ (crc32Byte_lt ha (hb x (by simp))) fun b hbm => hb b (by simp [hbm])
  exact main l 0xFFFFFFFF (by norm_num) hl

theorem utf8Char_lt (c : Char) : ∀ b ∈ utf8Char c, b < 2 ^ 32 := by
  have hc : c.toNat < 2 ^ 32 := by simpa using char_toNat_lt c
  intro b hb
  simp only [utf8Char] at hb
  have hshift : ∀ k : Nat, c.toNat >>> k < 2 ^ 32 := by
    intro k
    rw [Nat.shiftRight_eq_div_pow]
    exact Nat.lt_of_le_of_lt (Nat.div_le_self _ _) hc
  split at hb <;> [skip; split at hb] <;> [skip; skip; split at hb] <;>
    simp only [List.mem_cons, List.mem_singleton, List.not_mem_nil] at hb <;>
    rcases hb with hb | hb | hb | hb | hb <;> subst_eqs <;>
    first
      | omega
      | exact Nat.or_lt_two_pow (by norm_num) (hshift _)
      | exact Nat.or_lt_two_pow (by norm_num) (Nat.and_lt_two_pow _ (by norm_num))
      | exact absurd hb (by simp)

theorem utf8Bytes_lt (s : String) : ∀ b ∈ utf8Bytes s, b < 2 ^ 32 := by
  intro b hb
  unfold utf8Bytes at hb
  simp only [List.mem_flatten, List.mem_map] at hb
  obtain ⟨l, ⟨c, _, rfl⟩, hbl⟩ := hb
  exact utf8Char_lt c b hbl

theorem calculate_checksum_lt (c : Command) : c.calculate_checksum < 2 ^ 32 := by
  unfold Command.calculate_checksum
  refine crc32_lt _ ?_
  intro b hb
  match c with
  | .set k v =>
    simp only [Command.get_fields_for_checksum, List.mem_append] at hb
    rcases hb with hb | hb
    · exact utf8Bytes_lt k b hb
    · exact utf8Bytes_lt v b hb
  | .remove k =>
    simp only [Command.get_fields_for_checksum] at hb
    exact utf8Bytes_lt k b hb

theorem verify_mk_set (k v : String) (seq ts : Nat) :
    (KvsCommand.set k v seq ts).verify_checksum = true := by
  simp [KvsCommand.set, KvsCommand.verify_checksum]

theorem verify_mk_remove (k : String) (seq ts : Nat) :
    (KvsCommand.remove k seq ts).verify_checksum = true := by
  simp [KvsCommand.remove, KvsCommand.verify_checksum]

theorem flatten_map_leBytes_length (cs : List Char) :
    ((cs.map fun c => leBytes 4 c.toNat).flatten).length = 4 * cs.length := by
  induction cs with
  | nil => simp
  | cons c t ih => simp [ih, leBytes_length]; ring

theorem encStr_length (s : String) : (encStr s).length = 4 + 4 * s.length := by
  unfold encStr
  rw [List.length_append, leBytes_length, flatten_map_leBytes_length]
  rfl

theorem encode_length_mk_set (k v : String) (seq ts : Nat) :
    (encode (KvsCommand.set k v seq ts)).length = 33 + 4 * k.length + 4 * v.length := by
  simp [encode, KvsCommand.set, encodeCmd, encStr_length, leBytes_length]
  ring

theorem encode_length_mk_remove (k : String) (seq ts : Nat) :
    (encode (KvsCommand.remove k seq ts)).length = 29 + 4 * k.length := by
  simp [encode, KvsCommand.remove, encodeCmd, encStr_length, leBytes_length]
  ring

theorem decode_encode_mk_set (k v : String) (seq ts : Nat) (hseq : seq < 2 ^ 64)
    (hk : k.length < 2 ^ 32) (hv : v.length < 2 ^ 32) :
    decode (encode (KvsCommand.set k v seq ts)) = some (KvsCommand.set k v seq ts) :=
  decode_encode _ (Nat.mod_lt _ (by norm_num)) hseq (calculate_checksum_lt _)
    (by norm_num [KvsCommand.set, CURRENT_SCHEMA_VERSION]) ⟨hk, hv⟩

theorem decode_encode_mk_remove (k : String) (seq ts : Nat) (hseq : seq < 2 ^ 64)
    (hk : k.length < 2 ^ 32) :
    decode (encode (KvsCommand.remove k seq ts)) = some (KvsCommand.remove k seq ts) :=
  decode_encode _ (Nat.mod_lt _ (by norm_num)) hseq (calculate_checksum_lt _)
    (by norm_num [KvsCommand.remove, CURRENT_SCHEMA_VERSION]) hk

/-! ### Association list lemmas -/

section AssocLemmas

variable {α β : Type} [LinearOrder α] [DecidableEq α]

theorem alookup_sInsert (i : List (α × β)) (k : α) (c : β) (k' : α) :
    alookup (sInsert i k c) k' = if k' = k then some c else alookup i k' := by
  induction i with
  | nil => simp [sInsert, alookup]
  | cons p t ih =>
    obtain ⟨a, b⟩ := p
    by_cases h1 : k < a
    · simp [sInsert, if_pos h1, alookup]
    · by_cases h2 : k = a
      · simp only [sInsert, if_neg h1, if_pos h2, alookup]
        by_cases h3 : k' = k
        · simp [h3]
        · have h4 : ¬(k' = a) := by rw [← h2]; exact h3
          simp [h3, h4]
      · simp only [sInsert, if_neg h1, if_neg h2, alookup, ih]
        by_cases h3 : k' = a
        · have h4 : ¬(k' = k) := by
            intro h
            exact h2 (h ▸ h3)
          have h5 : ¬(a = k) := fun h => h2 h.symm
          simp [h3, h4, h5]
        · simp [h3]

theorem alookup_eq_none_of_not_mem {i : List (α × β)} {k : α}
    (h : k ∉ i.map Prod.fst) : alookup i k = none := by
  induction i with
  | nil => rfl
  | cons p t ih =>
    simp only [List.map_cons, List.mem_cons] at h
    push_neg at h
    simp [alookup, h.1, ih h.2]

theorem alookup_mem {i : List (α × β)} {k : α} {c : β} (h : alookup i k = some c) :
    (k, c) ∈ i := by
  induction i with
  | nil => simp [alookup] at h
  | cons p t ih =>
    obtain ⟨a, b⟩ := p
    simp only [alookup] at h
    split at h
    · rename_i he
      obtain rfl := he
      simp only [Option.some.injEq] at h
      simp [h]
    · simp [ih h]

theorem mem_keys_of_alookup {i : List (α × β)} {k : α} {c : β}
    (h : alookup i k = some c) : k ∈ i.map Prod.fst := by
  have := alookup_mem h
  exact List.mem_map.mpr ⟨(k, c), this, rfl⟩

theorem alookup_sErase (i : List (α × β)) (hnd : (i.map Prod.fst).Nodup) (k k' : α) :
    alookup (sErase i k) k' = if k' = k then none else alookup i k' := by
  induction i with
  | nil => simp [sErase, alookup]
  | cons p t ih =>
    obtain ⟨a, b⟩ := p
    simp only [List.map_cons, List.nodup_cons] at hnd
    by_cases h1 : k = a
    · simp only [sErase, if_pos h1, alookup]
      by_cases h2 : k' = k
      · have h4 : k ∉ List.map Prod.fst t := by rw [h1]; exact hnd.1
        simp [h2, alookup_eq_none_of_not_mem h4]
      · have h3 : ¬(k' = a) := by rw [← h1]; exact h2
        simp [h2, h3]
    · simp only [sErase, if_neg h1, alookup, ih hnd.2]
      by_cases h2 : k' = a
      · have h3 : ¬(k' = k) := by
          intro h
          exact h1 (h ▸ h2)
        have h5 : ¬(a = k) := fun h => h1 h.symm
        simp [h2, h3, h5]
      · simp [h2]

/-- Keys of an association list are strictly sorted. -/
def SortedKeys (l : List (α × β)) : Prop :=
  List.Pairwise (fun p q => p.1 < q.1) l

theorem SortedKeys.nodup_keys {l : List (α × β)} (h : SortedKeys l) :
    (l.map Prod.fst).Nodup := by
  induction l with
  | nil => simp
  | cons p t ih =>
    rw [SortedKeys, List.pairwise_cons] at h
    simp only [List.map_cons, List.nodup_cons]
    refine ⟨?_, ih h.2⟩
    intro hmem
    obtain ⟨q, hq, hqe⟩ := List.mem_map.mp hmem
    exact absurd (hqe ▸ h.1 q hq) (lt_irrefl _)

theorem mem_keys_sInsert {i : List (α × β)} {k x : α} {c : β}
    (h : x ∈ (sInsert i k c).map Prod.fst) : x = k ∨ x ∈ i.map Prod.fst := by
  induction i with
  | nil => simpa [sInsert] using h
  | cons p t ih =>
    obtain ⟨a, b⟩ := p
    simp only [sInsert] at h
    split at h
    · simpa using h
    · split at h
      · rename_i he
        subst he
        simp only [List.map_cons, List.mem_cons] at h ⊢
        tauto
      · simp only [List.map_cons, List.mem_cons] at h ⊢
        rcases h with h | h
        · tauto
        · rcases ih h with h | h <;> tauto

theorem sInsert_sorted {i : List (α × β)} (hs : SortedKeys i) (k : α) (c : β) :
    SortedKeys (sInsert i k c) := by
  induction i with
  | nil => simp [sInsert, SortedKeys]
  | cons p t ih =>
    obtain ⟨a, b⟩ := p
    rw [SortedKeys, List.pairwise_cons] at hs
    by_cases h1 : k < a
    · rw [sInsert, if_pos h1, SortedKeys, List.pairwise_cons]
      constructor
      · intro q hq
        rcases List.mem_cons.mp hq with rfl | hq
        · exact h1
        · exact lt_trans h1 (hs.1 q hq)
      · exact List.pairwise_cons.mpr hs
    · by_cases h2 : k = a
      · subst h2
        rw [sInsert, if_neg h1, if_pos rfl, SortedKeys, List.pairwise_cons]
        exact ⟨hs.1, hs.2⟩
      · rw [sInsert, if_neg h1, if_neg h2, SortedKeys, List.pairwise_cons]
        have hak : a < k := lt_of_le_of_ne (not_lt.mp h1) fun h => h2 h.symm
        constructor
        · intro q hq
          rcases mem_keys_sInsert (List.mem_map.mpr ⟨q, hq, rfl⟩) with h | h
          · exact h ▸ hak
          · obtain ⟨q', hq', he⟩ := List.mem_map.mp h
            exact he ▸ hs.1 q' hq'
        · exact ih hs.2

theorem mem_sErase {i : List (α × β)} {k : α} {q : α × β}
    (h : q ∈ sErase i k) : q ∈ i := by
  induction i with
  | nil => simpa [sErase] using h
  | cons p t ih =>
    simp only [sErase] at h
    split at h
    · simp [h]
    · rcases List.mem_cons.mp h with rfl | h
      · simp
      · simp [ih h]

theorem sErase_sorted {i : List (α × β)} (hs : SortedKeys i) (k : α) :
    SortedKeys (sErase i k) := by
  induction i with
  | nil => simpa [sErase] using hs
  | cons p t ih =>
    rw [SortedKeys, List.pairwise_cons] at hs
    simp only [sErase]
    split
    · exact hs.2
    · rw [SortedKeys, List.pairwise_cons]
      exact ⟨fun q hq => hs.1 q (mem_sErase hq), ih hs.2⟩

end AssocLemmas

theorem alookup_logsApp (l : Logs) (g : Nat) (bytes : List Nat) (g' : Nat) :
    alookup (logsApp l g bytes) g' =
      if g' = g then (alookup l g).map (· ++ bytes) else alookup l g' := by
  induction l with
  | nil => simp [logsApp, alookup]
  | cons p t ih =>
    obtain ⟨a, f⟩ := p
    by_cases h1 : g = a
    · subst h1
      simp only [logsApp, if_pos rfl, alookup]
      by_cases h2 : g' = g <;> simp [h2]
    · simp only [logsApp, if_neg h1, alookup, ih]
      by_cases h2 : g' = a
      · have h3 : ¬(g' = g) := by
          intro h
          exact h1 (h ▸ h2)
        have h5 : ¬(a = g) := fun h => h1 h.symm
        simp [h2, h3, h5]
      · simp [h2]

theorem logsApp_keys (l : Logs) (g : Nat) (bytes : List Nat) :
    (logsApp l g bytes).map Prod.fst = l.map Prod.fst := by
  induction l with
  | nil => rfl
  | cons p t ih =>
    obtain ⟨a, f⟩ := p
    simp only [logsApp]
    split <;> simp_all

/-! ### Frames: the record-level view of a log file -/

/-- One frame of a log file: its 4 prefix bytes, its body bytes, and the
record the body decodes to. -/
structure FrameR where
  pfx : List Nat
  body : List Nat
  cmd : KvsCommand

/-- A frame the replay loop accepts: 4 prefix bytes whose value is the body
length, a body that decodes to the carried record, and a valid checksum
(which in particular forces the command variant to be present). -/
def FrameWF (f : FrameR) : Prop :=
  f.pfx.length = 4 ∧ leVal f.pfx = f.body.length ∧ decode f.body = some f.cmd ∧
    f.cmd.verify_checksum = true

def frameBytes (f : FrameR) : List Nat := f.pfx ++ f.body

def filesBytes (fs : List FrameR) : List Nat := (fs.map frameBytes).flatten

theorem filesBytes_nil : filesBytes [] = [] := rfl

theorem filesBytes_cons (f : FrameR) (fs : List FrameR) :
    filesBytes (f :: fs) = frameBytes f ++ filesBytes fs := by
  simp [filesBytes]

theorem filesBytes_append (fs1 fs2 : List FrameR) :
    filesBytes (fs1 ++ fs2) = filesBytes fs1 ++ filesBytes fs2 := by
  simp [filesBytes]

/-- The record-level effect of replaying one frame, mirroring the branches
of `load_v2`. The state is (index, uncompacted, highest, position). -/
def applyRec (gen : Nat) (st : Idx × Nat × Nat × Nat) (f : FrameR) :
    Idx × Nat × Nat × Nat :=
  match st with
  | (index, uncompacted, highest, pos) =>
    let len := 4 + f.body.length
    let highest' := max highest f.cmd.sequence_number
    match f.cmd.command with
    | some (.set k _) =>
      match alookup index k with
      | some old =>
        (idxInsert index k ⟨gen, pos, len⟩, uncompacted + old.len, highest', pos + len)
      | none =>
        (idxInsert index k ⟨gen, pos, len⟩, uncompacted, highest', pos + len)
    | some (.remove k) =>
      match alookup index k with
      | some old => (idxErase index k, uncompacted + old.len + len, highest', pos + len)
      | none => (idxErase index k, uncompacted + len, highest', pos + len)
    | none => (index, uncompacted, highest', pos + len)

def applyRecs (gen : Nat) (st : Idx × Nat × Nat × Nat) (fs : List FrameR) :
    Idx × Nat × Nat × Nat :=
  fs.foldl (applyRec gen) st

def dropPos (st : Idx × Nat × Nat × Nat) : Idx × Nat × Nat :=
  (st.1, st.2.1, st.2.2.1)

theorem list_len4 {l : List Nat} (h : l.length = 4) :
    ∃ b0 b1 b2 b3, l = [b0, b1, b2, b3] := by
  rcases l with _ | ⟨b0, _ | ⟨b1, _ | ⟨b2, _ | ⟨b3, _ | ⟨b4, t⟩⟩⟩⟩⟩
  · simp at h
  · simp at h
  · simp at h
  · simp at h
  · exact ⟨b0, b1, b2, b3, rfl⟩
  · exfalso
    simp only [List.length_cons] at h
    omega

theorem loadAux_short (gen : Nat) (l : List Nat) (h : l.length < 4)
    (pos : Nat) (index : Idx) (uncompacted highest : Nat) :
    loadAux gen l pos index uncompacted highest = .ok (index, uncompacted, highest) := by
  rcases l with _ | ⟨a, _ | ⟨b, _ | ⟨c, _ | ⟨d, t⟩⟩⟩⟩
  · simp [loadAux]
  · simp [loadAux]
  · simp [loadAux]
  · simp [loadAux]
  · exfalso
    simp only [List.length_cons] at h
    omega

/-- Replay of a well-framed file (possibly with a short trailing fragment)
computes exactly the record-level fold. -/
theorem loadAux_frames (gen : Nat) (fs : List FrameR) (tail : List Nat)
    (hwf : ∀ f ∈ fs, FrameWF f) (htail : tail.length < 4) :
    ∀ (pos : Nat) (index : Idx) (uncompacted highest : Nat),
    loadAux gen (filesBytes fs ++ tail) pos index uncompacted highest =
      .ok (dropPos (applyRecs gen (index, uncompacted, highest, pos) fs)) := by
  induction fs with
  | nil =>
    intro pos index uncompacted highest
    rw [filesBytes_nil, List.nil_append, loadAux_short gen tail htail]
    rfl
  | cons f fs ih =>
    intro pos index uncompacted highest
    obtain ⟨hp4, hlv, hdec, hver⟩ := hwf f (by simp)
    have hwf' : ∀ g ∈ fs, FrameWF g := fun g hg => hwf g (by simp [hg])
    obtain ⟨b0, b1, b2, b3, hpfx⟩ := list_len4 hp4
    rw [filesBytes_cons, List.append_assoc, frameBytes, hpfx, List.append_assoc]
    show loadAux gen (b0 :: b1 :: b2 :: b3 :: (f.body ++ (filesBytes fs ++ tail)))
        pos index uncompacted highest = _
    rw [loadAux]
    have hml : leVal [b0, b1, b2, b3] = f.body.length := by rw [← hpfx]; exact hlv
    have hle : f.body.length ≤ (f.body ++ (filesBytes fs ++ tail)).length := by
      simp
    rw [hml]
    rw [dif_pos hle]
    rw [List.take_left' rfl, hdec]
    simp only [hver, if_true]
    have hdrop : (f.body ++ (filesBytes fs ++ tail)).drop f.body.length =
        filesBytes fs ++ tail := List.drop_left' rfl
    have hcmd : f.cmd.command ≠ none := by
      intro hnone
      rw [KvsCommand.verify_checksum, hnone] at hver
      exact Bool.noConfusion hver
    rcases hc : f.cmd.command with _ | c
    · exact absurd hc hcmd
    rcases c with ⟨k, v⟩ | ⟨k⟩ <;>
      rcases hl : alookup index k with _ | old <;>
      · simp only [hc, hl, hdrop]
        rw [ih hwf' _ _ _ _]
        simp only [applyRecs, List.foldl_cons, applyRec, hc, hl]

/-- Replay success decomposes the file into well-formed frames plus a short
trailing fragment, and the result is the record-level fold. -/
theorem loadAux_ok_decomp (gen : Nat) :
    ∀ (n : Nat) (file : List Nat), file.length ≤ n →
    ∀ (pos : Nat) (index : Idx) (uncompacted highest : Nat) (res : Idx × Nat × Nat),
    loadAux gen file pos index uncompacted highest = .ok res →
    ∃ (fs : List FrameR) (tail : List Nat),
      file = filesBytes fs ++ tail ∧ tail.length < 4 ∧ (∀ f ∈ fs, FrameWF f) ∧
      res = dropPos (applyRecs gen (index, uncompacted, highest, pos) fs) := by
  intro n
  induction n with
  | zero =>
    intro file hlen pos index uncompacted highest res hload
    have hnil : file = [] := List.length_eq_zero.mp (Nat.le_zero.mp hlen)
    subst hnil
    rw [loadAux_short gen [] (by simp)] at hload
    refine ⟨[], [], by simp [filesBytes_nil], by simp, by simp, ?_⟩
    cases hload
    rfl
  | succ n ih =>
    intro file hlen pos index uncompacted highest res hload
    by_cases hshort : file.length < 4
    · rw [loadAux_short gen file hshort] at hload
      refine ⟨[], file, by simp [filesBytes_nil], hshort, by simp, ?_⟩
      cases hload
      rfl
    · rcases file with _ | ⟨b0, _ | ⟨b1, _ | ⟨b2, _ | ⟨b3, rest⟩⟩⟩⟩
      · exact absurd (by simp) hshort
      · exact absurd (by simp) hshort
      · exact absurd (by simp) hshort
      · exact absurd (by simp) hshort
      rw [loadAux] at hload
      by_cases hle : leVal [b0, b1, b2, b3] ≤ rest.length
      case neg => rw [dif_neg hle] at hload; exact absurd hload (by simp)
      rw [dif_pos hle] at hload
      rcases hdec : decode (rest.take (leVal [b0, b1, b2, b3])) with _ | cmd
      · rw [hdec] at hload; exact absurd hload (by simp)
      simp only [hdec] at hload
      rcases hver : cmd.verify_checksum with _ | _
      · rw [hver] at hload; exact absurd hload (by simp)
      rw [if_pos hver] at hload
      have hlen' : (rest.drop (leVal [b0, b1, b2, b3])).length ≤ n := by
        simp only [List.length_drop]
        simp only [List.length_cons] at hlen
        omega
      have htk : (rest.take (leVal [b0, b1, b2, b3])).length = leVal [b0, b1, b2, b3] :=
        List.length_take_of_le hle
      have hfr : ∀ cmd2 : KvsCommand, decode (rest.take (leVal [b0, b1, b2, b3])) = some cmd2 →
          cmd2.verify_checksum = true →
          FrameWF ⟨[b0, b1, b2, b3], rest.take (leVal [b0, b1, b2, b3]), cmd2⟩ := by
        intro cmd2 h1 h2
        exact ⟨rfl, htk.symm, h1, h2⟩
      have hsplit : b0 :: b1 :: b2 :: b3 :: rest =
          filesBytes [⟨[b0, b1, b2, b3], rest.take (leVal [b0, b1, b2, b3]), cmd⟩] ++
            rest.drop (leVal [b0, b1, b2, b3]) := by
        simp only [filesBytes_cons, filesBytes_nil, frameBytes, List.append_nil,
          List.cons_append, List.append_assoc, List.take_append_drop]
        simp
      rcases hc : cmd.command with _ | c
      · rw [hc] at hload; exact absurd hload (by simp)
      rcases c with ⟨k, v⟩ | ⟨k⟩ <;>
        rcases hl : alookup index k with _ | old <;>
        · simp only [hc, hl] at hload
          obtain ⟨fs', tail, heq, htail, hwf', hres⟩ := ih _ hlen' _ _ _ _ _ hload
          refine ⟨⟨[b0, b1, b2, b3], rest.take (leVal [b0, b1, b2, b3]), cmd⟩ :: fs',
            tail, ?_, htail, ?_, ?_⟩
          · rw [filesBytes_cons]
            conv_lhs => rw [hsplit]
            rw [heq]
            simp [filesBytes_cons, filesBytes_nil, List.append_assoc]
          · intro f hf
            rcases List.mem_cons.mp hf with rfl | hf
            · exact hfr cmd hdec hver
            · exact hwf' f hf
          · rw [hres]
            simp only [applyRecs, List.foldl_cons, applyRec, hc, hl, htk]

/-! ### Store invariant: the record-level contents of every log -/

/-- The record-level contents of one log file: its generation, its frames,
and its short undecodable trailing fragment (empty for the current log,
which is created fresh at open). -/
structure RecFile where
  gen : Nat
  frames : List FrameR
  tail : List Nat

/-- The on-disk bytes of one record file. -/
def recsBytes (r : RecFile) : Nat × List Nat := (r.gen, filesBytes r.frames ++ r.tail)

/-- The index obtained by replaying every file in order. -/
def replayIdx (recs : List RecFile) : Idx :=
  recs.foldl (fun idx r => (applyRecs r.gen (idx, 0, 0, 0) r.frames).1) []

/-- Point update of an abstract key/value map. -/
def upd (m : String → Option String) (k : String) (o : Option String) :
    String → Option String :=
  fun k' => if k' = k then o else m k'

/-- The abstract effect of one record on the key/value map. -/
def applyVal (m : String → Option String) (f : FrameR) : String → Option String :=
  match f.cmd.command with
  | some (.set k v) => upd m k (some v)
  | some (.remove k) => upd m k none
  | none => m

def applyVals (m : String → Option String) (fs : List FrameR) : String → Option String :=
  fs.foldl applyVal m

/-- The abstract key/value map of the whole log history. -/
def mapOfRecs (recs : List RecFile) : String → Option String :=
  recs.foldl (fun m r => applyVals m r.frames) fun _ => none

/-- Frame `f` starts at byte offset `pos` of the frame list `fs`. -/
def FrameAt (fs : List FrameR) (pos : Nat) (f : FrameR) : Prop :=
  ∃ fs1 fs2, fs = fs1 ++ f :: fs2 ∧ pos = (filesBytes fs1).length

/-- The index entry `(k, cp)` points at a well-formed Set record for `k`
with value `v` inside the record files. -/
def EntryLoc (recs : List RecFile) (k : String) (cp : CommandPos) (v : String) : Prop :=
  ∃ r ∈ recs, r.gen = cp.gen ∧ ∃ f, FrameAt r.frames cp.pos f ∧
    cp.len = 4 + f.body.length ∧ FrameWF f ∧ f.cmd.command = some (.set k v)

/-- The index agrees with the abstract map, and every entry points at the
Set record carrying its value. -/
def IdxMap (recs : List RecFile) (idx : Idx) (m : String → Option String) : Prop :=
  ∀ k : String,
    (∀ cp, alookup idx k = some cp → ∃ v, EntryLoc recs k cp v ∧ m k = some v) ∧
    (alookup idx k = none → m k = none)

/-! ### More association-list helpers -/

section AssocLemmas2

variable {α β : Type} [LinearOrder α] [DecidableEq α]

theorem mem_sInsert {i : List (α × β)} {k : α} {c : β} {q : α × β}
    (h : q ∈ sInsert i k c) : q = (k, c) ∨ q ∈ i := by
  induction i with
  | nil => simpa [sInsert] using h
  | cons p t ih =>
    simp only [sInsert] at h
    split at h
    · simpa using h
    · split at h
      · rcases List.mem_cons.mp h with rfl | h <;> simp [h]
      · rcases List.mem_cons.mp h with rfl | h
        · simp
        · rcases ih h with h | h <;> simp [h]

theorem sInsert_gt {i : List (α × β)} {k : α} (h : ∀ p ∈ i, p.1 < k) (c : β) :
    sInsert i k c = i ++ [(k, c)] := by
  induction i with
  | nil => rfl
  | cons p t ih =>
    obtain ⟨a, b⟩ := p
    have hak : a < k := h (a, b) (by simp)
    rw [sInsert, if_neg (by exact fun hk => absurd (lt_trans hak hk) (lt_irrefl _)),
      if_neg (by exact fun hk => absurd (hk ▸ hak) (lt_irrefl _)),
      ih fun p hp => h p (by simp [hp])]
    rfl

theorem sInsert_middle {i : List (α × β)} {k k2 : α} (h : ∀ p ∈ i, p.1 < k)
    (hk : k < k2) (c c2 : β) :
    sInsert (i ++ [(k2, c2)]) k c = i ++ [(k, c), (k2, c2)] := by
  induction i with
  | nil => simp [sInsert, hk]
  | cons p t ih =>
    obtain ⟨a, b⟩ := p
    have hak : a < k := h (a, b) (by simp)
    rw [List.cons_append, sInsert,
      if_neg (by exact fun hk' => absurd (lt_trans hak hk') (lt_irrefl _)),
      if_neg (by exact fun hk' => absurd (hk' ▸ hak) (lt_irrefl _)),
      ih fun p hp => h p (by simp [hp])]
    rfl

theorem alookup_of_mem_nodup {i : List (α × β)} {k : α} {c : β}
    (hnd : (i.map Prod.fst).Nodup) (hmem : (k, c) ∈ i) : alookup i k = some c := by
  induction i with
  | nil => simp at hmem
  | cons p t ih =>
    obtain ⟨a, b⟩ := p
    simp only [List.map_cons, List.nodup_cons] at hnd
    rcases List.mem_cons.mp hmem with he | hmem'
    · cases he
      simp [alookup]
    · have hka : ¬(k = a) := by
        intro h
        subst h
        exact hnd.1 (List.mem_map.mpr ⟨(k, c), hmem', rfl⟩)
      simp [alookup, hka, ih hnd.2 hmem']

theorem isSome_alookup_of_key {l : List (α × β)} {g : α}
    (h : ∃ q ∈ l, q.1 = g) : (alookup l g).isSome := by
  induction l with
  | nil => simp at h
  | cons p t ih =>
    obtain ⟨q, hq, hqg⟩ := h
    rcases List.mem_cons.mp hq with rfl | hq'
    · simp [alookup, hqg.symm]
    · by_cases hg : g = p.1
      · simp [alookup, hg]
      · simpa [alookup, hg] using ih ⟨q, hq', hqg⟩

end AssocLemmas2

/-! ### readExact slicing lemmas -/

theorem readExact_at (A B C : List Nat) :
    readExact (A ++ B ++ C) A.length B.length = some B := by
  unfold readExact
  rw [if_pos (by simp)]
  rw [List.append_assoc, List.drop_left, List.take_left]

theorem readExact_at' {file A B C : List Nat} {pos n : Nat}
    (hfile : file = A ++ B ++ C) (hpos : A.length = pos) (hn : B.length = n) :
    readExact file pos n = some B := by
  subst hfile hpos hn
  exact readExact_at A B C

theorem sliceAt_frame (A B C : List Nat) :
    ((A ++ B ++ C).drop A.length).take B.length = B := by
  rw [List.append_assoc, List.drop_left, List.take_left]

/-! ### applyRecs structural lemmas -/

theorem applyRec_idx (g : Nat) (st : Idx × Nat × Nat × Nat) (f : FrameR) :
    (applyRec g st f).1 =
      match f.cmd.command with
      | some (.set k _) =>
        idxInsert st.1 k ⟨g, st.2.2.2, 4 + f.body.length⟩
      | some (.remove k) => idxErase st.1 k
      | none => st.1 := by
  obtain ⟨idx, unc, hs, pos⟩ := st
  rcases hc : f.cmd.command with _ | c
  · simp [applyRec, hc]
  · rcases c with ⟨k, v⟩ | ⟨k⟩ <;>
      rcases hl : alookup idx k with _ | old <;>
      simp [applyRec, hc, hl]

theorem applyRecs_pos (g : Nat) (fs : List FrameR) (hwf : ∀ f ∈ fs, FrameWF f) :
    ∀ st : Idx × Nat × Nat × Nat,
    (applyRecs g st fs).2.2.2 = st.2.2.2 + (filesBytes fs).length := by
  induction fs with
  | nil => intro st; simp [applyRecs, filesBytes_nil]
  | cons f fs ih =>
    intro st
    obtain ⟨idx, unc, hs, pos⟩ := st
    have hp4 := (hwf f (by simp)).1
    have hstep : (applyRec g (idx, unc, hs, pos) f).2.2.2 = pos + (4 + f.body.length) := by
      rcases hc : f.cmd.command with _ | c
      · simp [applyRec, hc]
      · rcases c with ⟨k, v⟩ | ⟨k⟩ <;>
          rcases hl : alookup idx k with _ | old <;>
          simp [applyRec, hc, hl]
    rw [applyRecs, List.foldl_cons]
    rw [show (List.foldl (applyRec g) (applyRec g (idx, unc, hs, pos) f) fs) =
      applyRecs g (applyRec g (idx, unc, hs, pos) f) fs from rfl]
    rw [ih (fun f hf => hwf f (by simp [hf])) _, hstep, filesBytes_cons]
    simp [frameBytes, hp4]
    omega

/-! ### Replay builds an index that matches the abstract map -/

theorem applyRecs_IdxMap (recs : List RecFile) (r : RecFile) (hr : r ∈ recs) :
    ∀ (fs fs0 : List FrameR), r.frames = fs0 ++ fs →
    (∀ f ∈ fs, FrameWF f) →
    ∀ (idx : Idx) (m : String → Option String) (unc hs : Nat),
    SortedKeys idx → IdxMap recs idx m →
    SortedKeys (applyRecs r.gen (idx, unc, hs, (filesBytes fs0).length) fs).1 ∧
      IdxMap recs (applyRecs r.gen (idx, unc, hs, (filesBytes fs0).length) fs).1
        (applyVals m fs) := by
  intro fs
  induction fs with
  | nil =>
    intro fs0 _ _ idx m unc hs hsort hmap
    exact ⟨hsort, hmap⟩
  | cons f fs ih =>
    intro fs0 hsplit hwf idx m unc hs hsort hmap
    obtain ⟨hp4, hlv, hdec, hver⟩ := hwf f (by simp)
    have hwf' : ∀ g ∈ fs, FrameWF g := fun g hg => hwf g (by simp [hg])
    have hcmd_ne : f.cmd.command ≠ none := by
      intro hnone
      rw [KvsCommand.verify_checksum, hnone] at hver
      exact Bool.noConfusion hver
    have hsplit' : r.frames = (fs0 ++ [f]) ++ fs := by rw [hsplit]; simp
    have hpos' : (filesBytes (fs0 ++ [f])).length =
        (filesBytes fs0).length + (4 + f.body.length) := by
      rw [filesBytes_append, List.length_append]
      simp [filesBytes_cons, filesBytes_nil, frameBytes, hp4]
    rcases hc : f.cmd.command with _ | c
    · exact absurd hc hcmd_ne
    rcases c with ⟨k, v⟩ | ⟨k⟩
    · -- Set record
      have hloc : EntryLoc recs k ⟨r.gen, (filesBytes fs0).length, 4 + f.body.length⟩ v := by
        refine ⟨r, hr, rfl, f, ⟨fs0, fs, hsplit, rfl⟩, rfl, ⟨hp4, hlv, hdec, hver⟩, hc⟩
      have hidx' : SortedKeys (idxInsert idx k
          ⟨r.gen, (filesBytes fs0).length, 4 + f.body.length⟩) :=
        sInsert_sorted hsort _ _
      have hmap' : IdxMap recs
          (idxInsert idx k ⟨r.gen, (filesBytes fs0).length, 4 + f.body.length⟩)
          (upd m k (some v)) := by
        intro k'
        constructor
        · intro cp hcp
          rw [idxInsert, alookup_sInsert] at hcp
          by_cases hk : k' = k
          · rw [if_pos hk] at hcp
            cases hcp
            subst hk
            exact ⟨v, hloc, by simp [upd]⟩
          · rw [if_neg hk] at hcp
            obtain ⟨v', hloc', hm'⟩ := (hmap k').1 cp hcp
            exact ⟨v', hloc', by simp [upd, hk, hm']⟩
        · intro hnone
          rw [idxInsert, alookup_sInsert] at hnone
          by_cases hk : k' = k
          · rw [if_pos hk] at hnone
            exact absurd hnone (by simp)
          · rw [if_neg hk] at hnone
            simp [upd, hk, (hmap k').2 hnone]
      rcases hl : alookup idx k with _ | old <;>
      · rw [applyRecs, List.foldl_cons]
        simp only [applyRec, hc, hl]
        rw [show (applyVals m (f :: fs)) = applyVals (upd m k (some v)) fs from by
          simp [applyVals, applyVal, hc]]
        exact hpos' ▸ ih (fs0 ++ [f]) hsplit' hwf' _ (upd m k (some v)) _ _ hidx' hmap'
    · -- Remove record
      have hidx' : SortedKeys (idxErase idx k) := sErase_sorted hsort _
      have hmap' : IdxMap recs (idxErase idx k) (upd m k none) := by
        intro k'
        constructor
        · intro cp hcp
          rw [idxErase, alookup_sErase _ hsort.nodup_keys] at hcp
          by_cases hk : k' = k
          · rw [if_pos hk] at hcp
            exact absurd hcp (by simp)
          · rw [if_neg hk] at hcp
            obtain ⟨v', hloc', hm'⟩ := (hmap k').1 cp hcp
            exact ⟨v', hloc', by simp [upd, hk, hm']⟩
        · intro hnone
          rw [idxErase, alookup_sErase _ hsort.nodup_keys] at hnone
          by_cases hk : k' = k
          · simp [upd, hk]
          · rw [if_neg hk] at hnone
            simp [upd, hk, (hmap k').2 hnone]
      rcases hl : alookup idx k with _ | old <;>
      · rw [applyRecs, List.foldl_cons]
        simp only [applyRec, hc, hl]
        rw [show (applyVals m (f :: fs)) = applyVals (upd m k none) fs from by
          simp [applyVals, applyVal, hc]]
        exact hpos' ▸ ih (fs0 ++ [f]) hsplit' hwf' _ (upd m k none) _ _ hidx' hmap'

theorem replay_IdxMap_aux (recs : List RecFile) :
    ∀ (rem : List RecFile), (∀ r ∈ rem, r ∈ recs) →
    (∀ r ∈ rem, ∀ f ∈ r.frames, FrameWF f) →
    ∀ (idx : Idx) (m : String → Option String), SortedKeys idx → IdxMap recs idx m →
    SortedKeys (rem.foldl (fun idx r => (applyRecs r.gen (idx, 0, 0, 0) r.frames).1) idx) ∧
      IdxMap recs (rem.foldl (fun idx r => (applyRecs r.gen (idx, 0, 0, 0) r.frames).1) idx)
        (rem.foldl (fun m r => applyVals m r.frames) m) := by
  intro rem
  induction rem with
  | nil =>
    intro _ _ idx m hsort hmap
    exact ⟨hsort, hmap⟩
  | cons r rest ih =>
    intro hmem hwf idx m hsort hmap
    have hstep := applyRecs_IdxMap recs r (hmem r (by simp)) r.frames [] (by simp)
      (hwf r (by simp)) idx m 0 0 hsort hmap
    rw [show (filesBytes ([] : List FrameR)).length = 0 from rfl] at hstep
    simp only [List.foldl_cons]
    exact ih (fun q hq => hmem q (by simp [hq])) (fun q hq => hwf q (by simp [hq]))
      _ _ hstep.1 hstep.2

theorem replay_IdxMap (recs : List RecFile)
    (hwf : ∀ r ∈ recs, ∀ f ∈ r.frames, FrameWF f) :
    SortedKeys (replayIdx recs) ∧
      IdxMap recs (replayIdx recs) (mapOfRecs recs) := by
  have hbase : IdxMap recs [] fun _ => none := by
    intro k
    constructor
    · intro cp hcp
      simp [alookup] at hcp
    · intro _
      rfl
  exact replay_IdxMap_aux recs recs (fun r hr => hr) hwf [] (fun _ => none)
    (by simp [SortedKeys]) hbase

/-! ### The store invariant and the abstract map -/

/-- The relation between a store state and the record-level contents of its
logs: the bytes match, every frame is well formed, trailing fragments are
short, generations are strictly ascending, the current generation is the
last log and has no trailing fragment, and replaying everything gives
exactly the in-memory index. -/
structure InvR (s : KvStore) (recs : List RecFile) : Prop where
  logs_eq : s.logs = recs.map recsBytes
  wf : ∀ r ∈ recs, ∀ f ∈ r.frames, FrameWF f
  tails : ∀ r ∈ recs, r.tail.length < 4
  gens_sorted : List.Pairwise (fun a b : RecFile => a.gen < b.gen) recs
  cur_last : ∃ pre fs, recs = pre ++ [⟨s.current_gen, fs, []⟩]
  replay : replayIdx recs = s.index

/-- A reachable store state whose observable key/value map is `m`. -/
def Good (s : KvStore) (m : String → Option String) : Prop :=
  ∃ recs, InvR s recs ∧ mapOfRecs recs = m

theorem alookup_recs {recs : List RecFile}
    (hsort : List.Pairwise (fun a b : RecFile => a.gen < b.gen) recs)
    {r : RecFile} (hr : r ∈ recs) :
    alookup (recs.map recsBytes) r.gen = some (filesBytes r.frames ++ r.tail) := by
  induction recs with
  | nil => simp at hr
  | cons q t ih =>
    rw [List.pairwise_cons] at hsort
    rcases List.mem_cons.mp hr with rfl | hr'
    · simp [recsBytes, alookup]
    · have hne : ¬(r.gen = q.gen) := fun h => absurd (h ▸ hsort.1 r hr') (lt_irrefl _)
      simp [recsBytes, alookup, hne, ih hsort.2 hr']

theorem get_v2_entry {s : KvStore} {k : String} {cp : CommandPos} {file : List Nat}
    {f : FrameR} {A C : List Nat} {k' v : String}
    (hik : alookup s.index k = some cp)
    (hlg : alookup s.logs cp.gen = some file)
    (hfile : file = A ++ frameBytes f ++ C)
    (hpos : A.length = cp.pos)
    (hwf : FrameWF f)
    (hcmd : f.cmd.command = some (.set k' v)) :
    get_v2 s k = .ok (some v) := by
  obtain ⟨hp4, hlv, hdec, hver⟩ := hwf
  have hfile1 : file = A ++ f.pfx ++ (f.body ++ C) := by
    rw [hfile, frameBytes]
    simp [List.append_assoc]
  have h1 : readExact file cp.pos 4 = some f.pfx :=
    readExact_at' hfile1 hpos hp4
  have hfile2 : file = (A ++ f.pfx) ++ f.body ++ C := by
    rw [hfile, frameBytes]
    simp [List.append_assoc]
  have hpos2 : (A ++ f.pfx).length = cp.pos + 4 := by
    simp [hpos, hp4]
  have h2 : readExact file (cp.pos + 4) f.body.length = some f.body :=
    readExact_at' hfile2 hpos2 rfl
  rw [get_v2]
  simp only [hik, hlg, h1, hlv, h2, hdec]
  simp [hver, hcmd]

theorem get_good {s : KvStore} {m : String → Option String} (hg : Good s m)
    (k : String) : get_v2 s k = .ok (m k) := by
  obtain ⟨recs, hinv, rfl⟩ := hg
  have hIM := (replay_IdxMap recs hinv.wf).2
  rw [hinv.replay] at hIM
  rcases hik : alookup s.index k with _ | cp
  · rw [get_v2, hik, (hIM k).2 hik]
  · obtain ⟨v, hloc, hmk⟩ := (hIM k).1 cp hik
    obtain ⟨r, hr, hgen, f, ⟨fs1, fs2, hfr, hpos⟩, hlen, hwf, hcmd⟩ := hloc
    rw [hmk]
    have hlg : alookup s.logs cp.gen = some (filesBytes r.frames ++ r.tail) := by
      rw [hinv.logs_eq]
      exact hgen ▸ alookup_recs hinv.gens_sorted hr
    have hfile : filesBytes r.frames ++ r.tail =
        filesBytes fs1 ++ frameBytes f ++ (filesBytes fs2 ++ r.tail) := by
      rw [hfr, filesBytes_append, filesBytes_cons]
      simp [List.append_assoc]
    exact get_v2_entry hik hlg hfile hpos.symm hwf hcmd

/-- Index sortedness is a consequence of the invariant. -/
theorem good_index_sorted {s : KvStore} {m : String → Option String}
    (hg : Good s m) : SortedKeys s.index := by
  obtain ⟨recs, hinv, _⟩ := hg
  have := (replay_IdxMap recs hinv.wf).1
  rwa [hinv.replay] at this

/-! ### Preservation: appending one frame to the current log -/

theorem replayIdx_append (pre : List RecFile) (r : RecFile) :
    replayIdx (pre ++ [r]) = (applyRecs r.gen (replayIdx pre, 0, 0, 0) r.frames).1 := by
  simp [replayIdx, List.foldl_append]

theorem mapOfRecs_append (pre : List RecFile) (r : RecFile) :
    mapOfRecs (pre ++ [r]) = applyVals (mapOfRecs pre) r.frames := by
  simp [mapOfRecs, List.foldl_append]

theorem applyRecs_append_one (g : Nat) (st : Idx × Nat × Nat × Nat)
    (fs : List FrameR) (f : FrameR) :
    applyRecs g st (fs ++ [f]) = applyRec g (applyRecs g st fs) f := by
  simp [applyRecs, List.foldl_append]

theorem applyVals_append_one (m : String → Option String) (fs : List FrameR) (f : FrameR) :
    applyVals m (fs ++ [f]) = applyVal (applyVals m fs) f := by
  simp [applyVals, List.foldl_append]

theorem logsApp_last {l : Logs} {g : Nat} (h : g ∉ l.map Prod.fst)
    (file bytes : List Nat) :
    logsApp (l ++ [(g, file)]) g bytes = l ++ [(g, file ++ bytes)] := by
  induction l with
  | nil => simp [logsApp]
  | cons p t ih =>
    obtain ⟨a, b⟩ := p
    simp only [List.map_cons, List.mem_cons] at h
    push_neg at h
    simp [logsApp, h.1, ih h.2]

theorem pre_gens_lt {recs pre : List RecFile} {g : Nat} {fs : List FrameR}
    {tl : List Nat}
    (hsort : List.Pairwise (fun a b : RecFile => a.gen < b.gen) recs)
    (hdecomp : recs = pre ++ [⟨g, fs, tl⟩]) :
    ∀ r ∈ pre, r.gen < g := by
  subst hdecomp
  obtain ⟨_, _, hcross⟩ := List.pairwise_append.mp hsort
  intro r hr
  exact hcross r hr ⟨g, fs, tl⟩ (by simp)

theorem currentFile_eq {s : KvStore} {recs : List RecFile} (hinv : InvR s recs)
    {pre : List RecFile} {fs : List FrameR}
    (hdecomp : recs = pre ++ [⟨s.current_gen, fs, []⟩]) :
    currentFile s = filesBytes fs := by
  rw [currentFile, hinv.logs_eq]
  have hr : (⟨s.current_gen, fs, []⟩ : RecFile) ∈ recs := by
    rw [hdecomp]
    simp
  rw [alookup_recs hinv.gens_sorted hr]
  simp

/-- Appending one well-formed frame to the current log preserves the
invariant; the new index is the record-level step applied to the old one,
the new map is the abstract step, and staleness and sequence fields are
unconstrained. -/
theorem append_frame_invr {s : KvStore} {recs : List RecFile} (hinv : InvR s recs)
    (fr : FrameR) (hwf : FrameWF fr) {pre : List RecFile} {fs : List FrameR}
    (hdecomp : recs = pre ++ [⟨s.current_gen, fs, []⟩])
    (unc' : Nat) (seq' : Option Nat) :
    InvR ⟨logsApp s.logs s.current_gen (frameBytes fr), s.current_gen,
          (applyRec s.current_gen (s.index, 0, 0, (filesBytes fs).length) fr).1,
          unc', seq'⟩
        (pre ++ [⟨s.current_gen, fs ++ [fr], []⟩]) ∧
      mapOfRecs (pre ++ [⟨s.current_gen, fs ++ [fr], []⟩]) =
        applyVal (mapOfRecs recs) fr := by
  have hlt := pre_gens_lt hinv.gens_sorted hdecomp
  have hnotmem : s.current_gen ∉ (pre.map recsBytes).map Prod.fst := by
    intro hmem
    simp only [List.map_map, List.mem_map] at hmem
    obtain ⟨r, hr, hre⟩ := hmem
    have : r.gen = s.current_gen := by simpa [recsBytes] using hre
    exact absurd (this ▸ hlt r hr) (lt_irrefl _)
  constructor
  · constructor
    · -- logs_eq
      show logsApp s.logs s.current_gen (frameBytes fr) = _
      rw [hinv.logs_eq, hdecomp, List.map_append]
      simp only [List.map_cons, List.map_nil]
      rw [show recsBytes ⟨s.current_gen, fs, []⟩ =
        (s.current_gen, filesBytes fs ++ []) from rfl]
      rw [logsApp_last hnotmem]
      simp [recsBytes, filesBytes_append, filesBytes_cons, filesBytes_nil]
    · -- wf
      intro r hr f hf
      rcases List.mem_append.mp hr with hr' | hr'
      · exact hinv.wf r (by rw [hdecomp]; simp [hr']) f hf
      · simp only [List.mem_singleton] at hr'
        subst hr'
        simp only at hf
        rcases List.mem_append.mp hf with hf' | hf'
        · exact hinv.wf ⟨s.current_gen, fs, []⟩ (by rw [hdecomp]; simp) f hf'
        · simp only [List.mem_singleton] at hf'
          subst hf'
          exact hwf
    · -- tails
      intro r hr
      rcases List.mem_append.mp hr with hr' | hr'
      · exact hinv.tails r (by rw [hdecomp]; simp [hr'])
      · simp only [List.mem_singleton] at hr'
        subst hr'
        simp
    · -- gens_sorted
      have h0 := hinv.gens_sorted
      rw [hdecomp] at h0
      obtain ⟨hpre, _, hcross⟩ := List.pairwise_append.mp h0
      refine List.pairwise_append.mpr ⟨hpre, by simp, ?_⟩
      intro a ha b hb
      simp only [List.mem_singleton] at hb
      subst hb
      exact hcross a ha ⟨s.current_gen, fs, []⟩ (by simp)
    · -- cur_last
      exact ⟨pre, fs ++ [fr], rfl⟩
    · -- replay
      show replayIdx (pre ++ [⟨s.current_gen, fs ++ [fr], []⟩]) = _
      rw [replayIdx_append]
      simp only
      rw [applyRecs_append_one]
      have hwfs : ∀ f ∈ fs, FrameWF f :=
        fun f hf => hinv.wf ⟨s.current_gen, fs, []⟩ (by rw [hdecomp]; simp) f hf
      have hpos := applyRecs_pos s.current_gen fs hwfs (replayIdx pre, 0, 0, 0)
      have hidxeq : (applyRecs s.current_gen (replayIdx pre, 0, 0, 0) fs).1 = s.index := by
        rw [← hinv.replay, hdecomp, replayIdx_append]
      rw [applyRec_idx, applyRec_idx]
      simp only [hidxeq, hpos]
      norm_num
  · -- map
    simp only [mapOfRecs_append, applyVals_append_one]
    have h2 : mapOfRecs recs = applyVals (mapOfRecs pre) fs := by
      rw [hdecomp]
      simp only [mapOfRecs_append]
    rw [h2]

/-! ### set_v2 and remove_v2 preserve the invariant -/

/-- The frame appended by a set. -/
def setFrame (key value : String) (seq ts : Nat) : FrameR :=
  ⟨leBytes 4 (encode (KvsCommand.set key value seq ts)).length,
    encode (KvsCommand.set key value seq ts), KvsCommand.set key value seq ts⟩

/-- The frame appended by a remove. -/
def removeFrame (key : String) (seq ts : Nat) : FrameR :=
  ⟨leBytes 4 (encode (KvsCommand.remove key seq ts)).length,
    encode (KvsCommand.remove key seq ts), KvsCommand.remove key seq ts⟩

theorem setFrame_wf (key value : String) (seq ts : Nat) (hseq : seq < 2 ^ 64)
    (hok : 4 * key.length + 4 * value.length + 33 < 2 ^ 32) :
    FrameWF (setFrame key value seq ts) := by
  refine ⟨leBytes_length 4 _, ?_, ?_, verify_mk_set key value seq ts⟩
  · show leVal (leBytes 4 (encode (KvsCommand.set key value seq ts)).length) =
      (encode (KvsCommand.set key value seq ts)).length
    rw [leVal_leBytes, show 8 * 4 = 32 from by norm_num, Nat.mod_eq_of_lt]
    rw [encode_length_mk_set]
    omega
  · exact decode_encode_mk_set key value seq ts hseq (by omega) (by omega)

theorem removeFrame_wf (key : String) (seq ts : Nat) (hseq : seq < 2 ^ 64)
    (hok : 4 * key.length + 29 < 2 ^ 32) :
    FrameWF (removeFrame key seq ts) := by
  refine ⟨leBytes_length 4 _, ?_, ?_, verify_mk_remove key seq ts⟩
  · show leVal (leBytes 4 (encode (KvsCommand.remove key seq ts)).length) =
      (encode (KvsCommand.remove key seq ts)).length
    rw [leVal_leBytes, show 8 * 4 = 32 from by norm_num, Nat.mod_eq_of_lt]
    rw [encode_length_mk_remove]
    omega
  · exact decode_encode_mk_remove key seq ts hseq (by omega)

theorem KvStore.ext {a b : KvStore} (h1 : a.logs = b.logs)
    (h2 : a.current_gen = b.current_gen) (h3 : a.index = b.index)
    (h4 : a.uncompacted = b.uncompacted)
    (h5 : a.current_sequence = b.current_sequence) : a = b := by
  cases a
  cases b
  simp_all

theorem set_v2_nc_logs (ts : Nat) (key value : String) (s : KvStore) :
    (set_v2_nc ts key value s).logs = logsApp s.logs s.current_gen
      (frameOf (KvsCommand.set key value ((s.current_sequence.getD 0 + 1) % 2 ^ 64) ts)) := by
  rcases hl : alookup s.index key with _ | old <;> simp [set_v2_nc, hl]

theorem set_v2_nc_gen (ts : Nat) (key value : String) (s : KvStore) :
    (set_v2_nc ts key value s).current_gen = s.current_gen := by
  rcases hl : alookup s.index key with _ | old <;> simp [set_v2_nc, hl]

theorem set_v2_nc_seq (ts : Nat) (key value : String) (s : KvStore) :
    (set_v2_nc ts key value s).current_sequence =
      some ((s.current_sequence.getD 0 + 1) % 2 ^ 64) := by
  rcases hl : alookup s.index key with _ | old <;> simp [set_v2_nc, hl]

theorem set_v2_nc_unc (ts : Nat) (key value : String) (s : KvStore) :
    (set_v2_nc ts key value s).uncompacted =
      match alookup s.index key with
      | some old => s.uncompacted + old.len
      | none => s.uncompacted := by
  rcases hl : alookup s.index key with _ | old <;> simp [set_v2_nc, hl]

theorem set_v2_nc_index (ts : Nat) (key value : String) (s : KvStore) :
    (set_v2_nc ts key value s).index = idxInsert s.index key
      ⟨s.current_gen, (currentFile s).length,
        ((alookup (logsApp s.logs s.current_gen
            (frameOf (KvsCommand.set key value ((s.current_sequence.getD 0 + 1) % 2 ^ 64) ts)))
          s.current_gen).getD []).length - (currentFile s).length⟩ := by
  rcases hl : alookup s.index key with _ | old <;> simp [set_v2_nc, hl]

theorem set_nc_good {s : KvStore} {m : String → Option String} (hg : Good s m)
    (ts : Nat) (key value : String)
    (hok : 4 * key.length + 4 * value.length + 33 < 2 ^ 32) :
    Good (set_v2_nc ts key value s) (upd m key (some value)) := by
  obtain ⟨recs, hinv, hm⟩ := hg
  obtain ⟨pre, fs, hdecomp⟩ := hinv.cur_last
  have hseq : (s.current_sequence.getD 0 + 1) % 2 ^ 64 < 2 ^ 64 :=
    Nat.mod_lt _ (by norm_num)
  have hwfr : FrameWF (setFrame key value ((s.current_sequence.getD 0 + 1) % 2 ^ 64) ts) :=
    setFrame_wf _ _ _ _ hseq hok
  have hcur : currentFile s = filesBytes fs := currentFile_eq hinv hdecomp
  have hlast_mem : (⟨s.current_gen, fs, []⟩ : RecFile) ∈ recs := by
    rw [hdecomp]
    simp
  have hlook : alookup s.logs s.current_gen = some (filesBytes fs ++ []) := by
    rw [hinv.logs_eq]
    exact alookup_recs hinv.gens_sorted hlast_mem
  have hlen : ((alookup (logsApp s.logs s.current_gen
        (frameOf (KvsCommand.set key value ((s.current_sequence.getD 0 + 1) % 2 ^ 64) ts)))
        s.current_gen).getD []).length - (currentFile s).length =
      4 + (encode (KvsCommand.set key value ((s.current_sequence.getD 0 + 1) % 2 ^ 64) ts)).length := by
    rw [alookup_logsApp, if_pos rfl, hlook]
    simp [frameOf, leBytes_length, hcur]
  have happ := append_frame_invr hinv
    (setFrame key value ((s.current_sequence.getD 0 + 1) % 2 ^ 64) ts) hwfr hdecomp
    (set_v2_nc ts key value s).uncompacted
    (some ((s.current_sequence.getD 0 + 1) % 2 ^ 64))
  have hidx : (applyRec s.current_gen (s.index, 0, 0, (filesBytes fs).length)
      (setFrame key value ((s.current_sequence.getD 0 + 1) % 2 ^ 64) ts)).1 =
      idxInsert s.index key
        ⟨s.current_gen, (filesBytes fs).length,
          4 + (encode (KvsCommand.set key value ((s.current_sequence.getD 0 + 1) % 2 ^ 64) ts)).length⟩ := by
    rw [applyRec_idx]
    rfl
  have hstate : set_v2_nc ts key value s =
      ⟨logsApp s.logs s.current_gen
          (frameBytes (setFrame key value ((s.current_sequence.getD 0 + 1) % 2 ^ 64) ts)),
        s.current_gen,
        (applyRec s.current_gen (s.index, 0, 0, (filesBytes fs).length)
          (setFrame key value ((s.current_sequence.getD 0 + 1) % 2 ^ 64) ts)).1,
        (set_v2_nc ts key value s).uncompacted,
        some ((s.current_sequence.getD 0 + 1) % 2 ^ 64)⟩ := by
    refine KvStore.ext ?_ ?_ ?_ rfl ?_
    · rw [set_v2_nc_logs]
      rfl
    · rw [set_v2_nc_gen]
    · rw [set_v2_nc_index, hidx, hlen, hcur]
    · rw [set_v2_nc_seq]
  refine ⟨pre ++ [⟨s.current_gen, fs ++
    [setFrame key value ((s.current_sequence.getD 0 + 1) % 2 ^ 64) ts], []⟩], ?_, ?_⟩
  · rw [hstate]
    exact happ.1
  · rw [happ.2, ← hm]
    rfl

theorem remove_absent (ts : Nat) (key : String) (s : KvStore)
    (hcp : alookup s.index key = none) :
    remove_v2 ts key s = (.err .KeyNotFound, s) := by
  simp [remove_v2, hcp]

theorem remove_v2_eq (ts : Nat) (key : String) (s : KvStore) {old : CommandPos}
    (hcp : alookup s.index key = some old) :
    remove_v2 ts key s = maybeCompact
      ⟨logsApp s.logs s.current_gen
          (frameOf (KvsCommand.remove key ((s.current_sequence.getD 0 + 1) % 2 ^ 64) ts)),
        s.current_gen,
        idxErase s.index key,
        s.uncompacted + old.len +
          (((alookup (logsApp s.logs s.current_gen
              (frameOf (KvsCommand.remove key ((s.current_sequence.getD 0 + 1) % 2 ^ 64) ts)))
            s.current_gen).getD []).length - (currentFile s).length),
        some ((s.current_sequence.getD 0 + 1) % 2 ^ 64)⟩ := by
  simp only [remove_v2, hcp, Option.isSome_some, if_true, currentFile]

theorem remove_present_good {s : KvStore} {m : String → Option String} (hg : Good s m)
    (ts : Nat) (key : String) (hok : 4 * key.length + 29 < 2 ^ 32)
    {old : CommandPos} (hcp : alookup s.index key = some old) :
    ∃ s2 : KvStore, remove_v2 ts key s = maybeCompact s2 ∧ Good s2 (upd m key none) ∧
      s2.index = idxErase s.index key ∧ s2.current_gen = s.current_gen ∧
      s2.uncompacted = s.uncompacted + old.len +
        (4 + (encode (KvsCommand.remove key
          ((s.current_sequence.getD 0 + 1) % 2 ^ 64) ts)).length) := by
  obtain ⟨recs, hinv, hm⟩ := hg
  obtain ⟨pre, fs, hdecomp⟩ := hinv.cur_last
  have hseq : (s.current_sequence.getD 0 + 1) % 2 ^ 64 < 2 ^ 64 :=
    Nat.mod_lt _ (by norm_num)
  have hwfr : FrameWF (removeFrame key ((s.current_sequence.getD 0 + 1) % 2 ^ 64) ts) :=
    removeFrame_wf _ _ _ hseq hok
  have hcur : currentFile s = filesBytes fs := currentFile_eq hinv hdecomp
  have hlast_mem : (⟨s.current_gen, fs, []⟩ : RecFile) ∈ recs := by
    rw [hdecomp]
    simp
  have hlook : alookup s.logs s.current_gen = some (filesBytes fs ++ []) := by
    rw [hinv.logs_eq]
    exact alookup_recs hinv.gens_sorted hlast_mem
  have hlen : ((alookup (logsApp s.logs s.current_gen
        (frameOf (KvsCommand.remove key ((s.current_sequence.getD 0 + 1) % 2 ^ 64) ts)))
        s.current_gen).getD []).length - (currentFile s).length =
      4 + (encode (KvsCommand.remove key ((s.current_sequence.getD 0 + 1) % 2 ^ 64) ts)).length := by
    rw [alookup_logsApp, if_pos rfl, hlook]
    simp [frameOf, leBytes_length, hcur]
  refine ⟨_, remove_v2_eq ts key s hcp, ?_, rfl, rfl, ?_⟩
  · -- Good of the intermediate state
    have happ := append_frame_invr hinv
      (removeFrame key ((s.current_sequence.getD 0 + 1) % 2 ^ 64) ts) hwfr hdecomp
      (s.uncompacted + old.len +
        (((alookup (logsApp s.logs s.current_gen
            (frameOf (KvsCommand.remove key ((s.current_sequence.getD 0 + 1) % 2 ^ 64) ts)))
          s.current_gen).getD []).length - (currentFile s).length))
      (some ((s.current_sequence.getD 0 + 1) % 2 ^ 64))
    have hidx : (applyRec s.current_gen (s.index, 0, 0, (filesBytes fs).length)
        (removeFrame key ((s.current_sequence.getD 0 + 1) % 2 ^ 64) ts)).1 =
        idxErase s.index key := by
      rw [applyRec_idx]
      rfl
    rw [hidx] at happ
    refine ⟨_, happ.1, ?_⟩
    rw [happ.2, ← hm]
    rfl
  · simp only [hlen]

/-! ### Compaction -/

/-- Retarget index entries to the compaction generation at consecutive
offsets, keeping each framed length. -/
def retarget (cgen : Nat) : Nat → Idx → Idx
  | _, [] => []
  | pos, (k, cp) :: t => (k, ⟨cgen, pos, cp.len⟩) :: retarget cgen (pos + cp.len) t

/-- Entry `(k, cp)` addresses frame `f` (a Set of `k` to `v`) inside the
registry `logs`. -/
def EntryFrame (logs : Logs) (k : String) (cp : CommandPos) (f : FrameR)
    (v : String) : Prop :=
  (∃ A C, alookup logs cp.gen = some (A ++ frameBytes f ++ C) ∧ A.length = cp.pos) ∧
    cp.len = 4 + f.body.length ∧ FrameWF f ∧ f.cmd.command = some (.set k v)

theorem compactLoop_spec (logs : Logs) (cgen : Nat) (m : String → Option String) :
    ∀ (entries : Idx),
    (∀ p ∈ entries, ∃ f v, EntryFrame logs p.1 p.2 f v ∧ m p.1 = some v) →
    ∀ (npos : Nat) (accIdx : Idx) (accBytes : List Nat),
    ∃ fl : List FrameR,
      compactLoop logs cgen entries npos accIdx accBytes =
        .ok (accIdx ++ retarget cgen npos entries, accBytes ++ filesBytes fl) ∧
      List.Forall₂ (fun (p : String × CommandPos) (f : FrameR) =>
        ∃ v, EntryFrame logs p.1 p.2 f v ∧ m p.1 = some v) entries fl := by
  intro entries
  induction entries with
  | nil =>
    intro _ npos accIdx accBytes
    exact ⟨[], by simp [compactLoop, retarget, filesBytes_nil], List.Forall₂.nil⟩
  | cons p t ih =>
    obtain ⟨k, cp⟩ := p
    intro hef npos accIdx accBytes
    obtain ⟨f, v, hef1, hmv⟩ := hef (k, cp) (by simp)
    obtain ⟨⟨A, C, hlook, hA⟩, hlen, hwf, hcmd⟩ := hef1
    obtain ⟨hp4, hlv, hdec, hver⟩ := hwf
    have hfile1 : A ++ frameBytes f ++ C = A ++ f.pfx ++ (f.body ++ C) := by
      rw [frameBytes]
      simp [List.append_assoc]
    have h1 : readExact (A ++ frameBytes f ++ C) cp.pos 4 = some f.pfx :=
      readExact_at' hfile1 hA hp4
    have hfile2 : A ++ frameBytes f ++ C = (A ++ f.pfx) ++ f.body ++ C := by
      rw [frameBytes]
      simp [List.append_assoc]
    have hpos2 : (A ++ f.pfx).length = cp.pos + 4 := by
      simp [hA, hp4]
    have h2 : readExact (A ++ frameBytes f ++ C) (cp.pos + 4) f.body.length =
        some f.body :=
      readExact_at' hfile2 hpos2 rfl
    obtain ⟨fl', hloop', hrel'⟩ := ih
      (fun q hq => hef q (by simp [hq]))
      (npos + (4 + leVal f.pfx))
      (accIdx ++ [(k, ⟨cgen, npos, 4 + leVal f.pfx⟩)])
      (accBytes ++ (f.pfx ++ f.body))
    refine ⟨f :: fl', ?_, ?_⟩
    · rw [compactLoop]
      simp only [hlook, h1, hlv, h2]
      rw [hlv] at hloop'
      rw [hloop', retarget, hlen]
      simp [List.append_assoc, filesBytes_cons, frameBytes]
    · exact List.Forall₂.cons ⟨v, ⟨⟨A, C, hlook, hA⟩, hlen,
        ⟨hp4, hlv, hdec, hver⟩, hcmd⟩, hmv⟩ hrel'

theorem alookup_append_left {α β : Type} [DecidableEq α] {l r : List (α × β)} {g : α}
    (h : (alookup l g).isSome) : alookup (l ++ r) g = alookup l g := by
  induction l with
  | nil => simp [alookup] at h
  | cons p t ih =>
    obtain ⟨a, b⟩ := p
    by_cases hg : g = a
    · simp [alookup, hg]
    · simp only [List.cons_append, alookup, hg, if_false] at h ⊢
      exact ih h

theorem recs_gens_le {s : KvStore} {recs : List RecFile} (hinv : InvR s recs) :
    ∀ r ∈ recs, r.gen ≤ s.current_gen := by
  obtain ⟨pre, fs, hdecomp⟩ := hinv.cur_last
  have hlt := pre_gens_lt hinv.gens_sorted hdecomp
  intro r hr
  rw [hdecomp] at hr
  rcases List.mem_append.mp hr with h | h
  · exact le_of_lt (hlt r h)
  · simp only [List.mem_singleton] at h
    subst h
    exact le_refl _

theorem good_entry_frames {s : KvStore} {m : String → Option String} (hg : Good s m) :
    ∀ p ∈ s.index, ∃ f v, EntryFrame s.logs p.1 p.2 f v ∧ m p.1 = some v ∧
      p.2.gen ≤ s.current_gen := by
  obtain ⟨recs, hinv, hm⟩ := hg
  obtain ⟨hsorted, hIM⟩ := replay_IdxMap recs hinv.wf
  rw [hinv.replay] at hIM hsorted
  intro p hp
  obtain ⟨k, cp⟩ := p
  have hlk : alookup s.index k = some cp := alookup_of_mem_nodup hsorted.nodup_keys hp
  obtain ⟨v, hloc, hmv⟩ := (hIM k).1 cp hlk
  obtain ⟨r, hr, hgen, f, ⟨fs1, fs2, hfr, hpos⟩, hlen, hwf, hcmd⟩ := hloc
  refine ⟨f, v, ⟨⟨filesBytes fs1, filesBytes fs2 ++ r.tail, ?_, hpos.symm⟩,
    hlen, hwf, hcmd⟩, hm ▸ hmv, hgen ▸ recs_gens_le hinv r hr⟩
  rw [hinv.logs_eq, ← hgen, alookup_recs hinv.gens_sorted hr, hfr,
    filesBytes_append, filesBytes_cons]
  simp [List.append_assoc]

theorem entryFrame_insert {logs : Logs} {k : String} {cp : CommandPos} {f : FrameR}
    {v : String} (h : EntryFrame logs k cp f v) {g : Nat} (hne : ¬(cp.gen = g))
    (b : List Nat) : EntryFrame (logsInsert logs g b) k cp f v := by
  obtain ⟨⟨A, C, hlook, hA⟩, rest⟩ := h
  exact ⟨⟨A, C, by rw [logsInsert, alookup_sInsert, if_neg hne, hlook], hA⟩, rest⟩

theorem applyRecs_sets_ascending (g : Nat) :
    ∀ (entries : Idx) (fl : List FrameR),
    List.Forall₂ (fun (p : String × CommandPos) (f : FrameR) =>
      p.2.len = 4 + f.body.length ∧ ∃ v, f.cmd.command = some (.set p.1 v)) entries fl →
    SortedKeys entries →
    ∀ (idx0 : Idx) (unc hs npos : Nat),
    (∀ q ∈ idx0, ∀ p ∈ entries, q.1 < p.1) →
    (applyRecs g (idx0, unc, hs, npos) fl).1 = idx0 ++ retarget g npos entries := by
  intro entries fl hrel
  induction hrel with
  | nil =>
    intro _ idx0 unc hs npos _
    simp [applyRecs, retarget]
  | cons h1 h2 ih =>
    rename_i p f t fl'
    intro hsorted idx0 unc hs npos hgt
    obtain ⟨hlen, v, hcmd⟩ := h1
    rw [SortedKeys, List.pairwise_cons] at hsorted
    have hnotmem : p.1 ∉ idx0.map Prod.fst := by
      intro hmem
      obtain ⟨q, hq, hqe⟩ := List.mem_map.mp hmem
      exact absurd (hqe ▸ hgt q hq p (by simp)) (lt_irrefl _)
    have hnone : alookup idx0 p.1 = none := alookup_eq_none_of_not_mem hnotmem
    obtain ⟨k, cp⟩ := p
    rw [applyRecs, List.foldl_cons]
    simp only [applyRec, hcmd, hnone]
    have hins : idxInsert idx0 k ⟨g, npos, 4 + f.body.length⟩ =
        idx0 ++ [(k, ⟨g, npos, 4 + f.body.length⟩)] :=
      sInsert_gt (fun q hq => hgt q hq (k, cp) (by simp)) _
    rw [hins]
    have hgt' : ∀ q ∈ idx0 ++ [(k, (⟨g, npos, 4 + f.body.length⟩ : CommandPos))],
        ∀ p' ∈ t, q.1 < p'.1 := by
      intro q hq p' hp'
      rcases List.mem_append.mp hq with hq' | hq'
      · exact hgt q hq' p' (by simp [hp'])
      · simp only [List.mem_singleton] at hq'
        subst hq'
        exact hsorted.1 p' hp'
    have := ih hsorted.2 (idx0 ++ [(k, ⟨g, npos, 4 + f.body.length⟩)]) unc
      (max hs f.cmd.sequence_number) (npos + (4 + f.body.length)) hgt'
    rw [show applyRecs g (idx0 ++ [(k, (⟨g, npos, 4 + f.body.length⟩ : CommandPos))],
      unc, max hs f.cmd.sequence_number, npos + (4 + f.body.length)) fl' =
      List.foldl (applyRec g) (idx0 ++ [(k, ⟨g, npos, 4 + f.body.length⟩)],
        unc, max hs f.cmd.sequence_number, npos + (4 + f.body.length)) fl' from rfl] at this
    rw [this, retarget, ← hlen]
    simp [List.append_assoc, hlen]

theorem applyVals_align :
    ∀ (entries : Idx) (fl : List FrameR) (m : String → Option String),
    List.Forall₂ (fun (p : String × CommandPos) (f : FrameR) =>
      ∃ v, f.cmd.command = some (.set p.1 v) ∧ m p.1 = some v) entries fl →
    (entries.map Prod.fst).Nodup →
    ∀ m0 : String → Option String, (∀ k, k ∉ entries.map Prod.fst → m0 k = m k) →
    applyVals m0 fl = m := by
  intro entries fl m hrel
  induction hrel with
  | nil =>
    intro _ m0 h0
    funext k
    exact h0 k (by simp)
  | cons h1 h2 ih =>
    rename_i p f t fl'
    intro hnd m0 h0
    obtain ⟨v, hcmd, hmv⟩ := h1
    rw [applyVals, List.foldl_cons,
      show applyVal m0 f = upd m0 p.1 (some v) from by simp [applyVal, hcmd]]
    simp only [List.map_cons, List.nodup_cons] at hnd
    refine ih hnd.2 _ ?_
    intro k hk
    by_cases hkp : k = p.1
    · subst hkp
      rw [upd, if_pos rfl, hmv]
    · rw [upd, if_neg hkp]
      refine h0 k ?_
      simp only [List.map_cons, List.mem_cons]
      push_neg
      exact ⟨hkp, hk⟩

theorem logsApp_front {l r : Logs} {g : Nat} (h : g ∉ l.map Prod.fst)
    (b : List Nat) : logsApp (l ++ r) g b = l ++ logsApp r g b := by
  induction l with
  | nil => simp
  | cons p t ih =>
    obtain ⟨a, fb⟩ := p
    simp only [List.map_cons, List.mem_cons] at h
    push_neg at h
    simp [logsApp, h.1, ih h.2]

theorem filter_lt_nil {l : Logs} {g : Nat} (h : ∀ p ∈ l, p.1 < g) :
    l.filter (fun p => decide (g ≤ p.1)) = [] := by
  induction l with
  | nil => rfl
  | cons p t ih =>
    have hp := h p (by simp)
    simp only [List.filter_cons]
    rw [if_neg (by simp; omega)]
    exact ih fun q hq => h q (by simp [hq])

theorem forall₂_mem_right {α β : Type} {R : α → β → Prop} {l1 : List α} {l2 : List β}
    (h : List.Forall₂ R l1 l2) {b : β} (hb : b ∈ l2) : ∃ a ∈ l1, R a b := by
  induction h with
  | nil => simp at hb
  | cons h1 h2 ih =>
    rcases List.mem_cons.mp hb with rfl | hb'
    · exact ⟨_, by simp, h1⟩
    · obtain ⟨a, ha, hr⟩ := ih hb'
      exact ⟨a, by simp [ha], hr⟩

theorem good_map_none {s : KvStore} {m : String → Option String} (hg : Good s m) :
    ∀ k, k ∉ s.index.map Prod.fst → m k = none := by
  obtain ⟨recs, hinv, hm⟩ := hg
  have hIM := (replay_IdxMap recs hinv.wf).2
  rw [hinv.replay] at hIM
  intro k hk
  rw [← hm]
  exact (hIM k).2 (alookup_eq_none_of_not_mem hk)

theorem slices_of_rel {logs : Logs} {m : String → Option String} :
    ∀ {entries : Idx} {fl : List FrameR},
    List.Forall₂ (fun (p : String × CommandPos) (f : FrameR) =>
      ∃ v, EntryFrame logs p.1 p.2 f v ∧ m p.1 = some v) entries fl →
    (entries.map fun p =>
      (((alookup logs p.2.gen).getD []).drop p.2.pos).take p.2.len).flatten =
      filesBytes fl := by
  intro entries fl hrel
  induction hrel with
  | nil => simp [filesBytes_nil]
  | cons h1 h2 ih =>
    rename_i p f t fl'
    obtain ⟨v, ⟨⟨A, C, hlook, hA⟩, hlen, hwf, hcmd⟩, hmv⟩ := h1
    have hfb : (frameBytes f).length = p.2.len := by
      rw [frameBytes, List.length_append, hwf.1, hlen]
    rw [List.map_cons, List.flatten_cons, ih, filesBytes_cons, hlook]
    congr 1
    rw [Option.getD_some, ← hA, ← hfb, sliceAt_frame]

/-- Full characterization of `compact` on a reachable state: it succeeds,
writes the live frames into generation `current_gen + 1` byte for byte,
retargets the index at consecutive offsets, deletes every older
generation, moves the current generation to `current_gen + 2`, resets the
staleness counter, and preserves the observable map. -/
theorem compact_spec {s : KvStore} {m : String → Option String} (hg : Good s m) :
    ∃ fl : List FrameR,
      compact s = (.ok (),
        ⟨[(s.current_gen + 1, filesBytes fl), (s.current_gen + 2, [])],
          s.current_gen + 2,
          retarget (s.current_gen + 1) 0 s.index,
          0,
          s.current_sequence⟩) ∧
      Good (⟨[(s.current_gen + 1, filesBytes fl), (s.current_gen + 2, [])],
          s.current_gen + 2, retarget (s.current_gen + 1) 0 s.index, 0,
          s.current_sequence⟩ : KvStore) m ∧
      filesBytes fl = (s.index.map fun p =>
        (((alookup s.logs p.2.gen).getD []).drop p.2.pos).take p.2.len).flatten := by
  classical
  obtain ⟨recs, hinv, hm⟩ := hg
  have hgood : Good s m := ⟨recs, hinv, hm⟩
  have hkeysle : ∀ p ∈ s.logs, p.1 ≤ s.current_gen := by
    intro p hp
    rw [hinv.logs_eq] at hp
    obtain ⟨r, hr, hre⟩ := List.mem_map.mp hp
    have : p.1 = r.gen := by rw [← hre]; rfl
    rw [this]
    exact recs_gens_le hinv r hr
  have hlogs2keys : ∀ (g : Nat) (b : List Nat),
      logsInsert (logsInsert s.logs (s.current_gen + 2) []) (s.current_gen + 1) [] =
      s.logs ++ [(s.current_gen + 1, []), (s.current_gen + 2, [])] := by
    intro _ _
    rw [show logsInsert s.logs (s.current_gen + 2) [] =
        s.logs ++ [(s.current_gen + 2, [])] from
      sInsert_gt (fun p hp => lt_of_le_of_lt (hkeysle p hp) (by omega)) _]
    exact sInsert_middle (fun p hp => lt_of_le_of_lt (hkeysle p hp) (by omega))
      (by omega) _ _
  have hlogs2 := hlogs2keys 0 []
  -- entries of the index address their frames in the enlarged registry
  have hef : ∀ p ∈ s.index, ∃ f v,
      EntryFrame (logsInsert (logsInsert s.logs (s.current_gen + 2) [])
        (s.current_gen + 1) []) p.1 p.2 f v ∧ m p.1 = some v := by
    intro p hp
    obtain ⟨f, v, hef0, hmv, hgle⟩ := good_entry_frames hgood p hp
    refine ⟨f, v, entryFrame_insert (entryFrame_insert hef0 ?_ _) ?_ _, hmv⟩
    · omega
    · omega
  obtain ⟨fl, hloopeq, hrel⟩ := compactLoop_spec
    (logsInsert (logsInsert s.logs (s.current_gen + 2) []) (s.current_gen + 1) [])
    (s.current_gen + 1) m s.index hef 0 [] []
  -- registry bookkeeping of the final state
  have hnotmem1 : s.current_gen + 1 ∉ s.logs.map Prod.fst := by
    intro hmem
    obtain ⟨p, hp, hpe⟩ := List.mem_map.mp hmem
    have := hkeysle p hp
    omega
  have happlied : logsApp (s.logs ++ [(s.current_gen + 1, []), (s.current_gen + 2, [])])
      (s.current_gen + 1) (filesBytes fl) =
      s.logs ++ [(s.current_gen + 1, filesBytes fl), (s.current_gen + 2, [])] := by
    rw [logsApp_front hnotmem1]
    simp [logsApp]
  have hfiltered : ((s.logs ++ [(s.current_gen + 1, filesBytes fl),
        (s.current_gen + 2, [])]).filter
          fun p => decide (s.current_gen + 1 ≤ p.1)) =
      [(s.current_gen + 1, filesBytes fl), (s.current_gen + 2, [])] := by
    rw [List.filter_append,
      filter_lt_nil fun p hp => lt_of_le_of_lt (hkeysle p hp) (by omega)]
    simp only [List.filter_cons]
    rw [if_pos (by simp), if_pos (by simp)]
    simp
  have hcompact : compact s = (.ok (),
      ⟨[(s.current_gen + 1, filesBytes fl), (s.current_gen + 2, [])],
        s.current_gen + 2, retarget (s.current_gen + 1) 0 s.index, 0,
        s.current_sequence⟩) := by
    rw [hlogs2] at hloopeq
    simp only [compact, hlogs2, hloopeq, List.nil_append]
    rw [happlied, hfiltered]
  have hsorted : SortedKeys s.index := good_index_sorted hgood
  rw [hlogs2] at hrel
  refine ⟨fl, hcompact, ?_, ?_⟩
  · -- the compacted state is Good for the same map
    refine ⟨[⟨s.current_gen + 1, fl, []⟩, ⟨s.current_gen + 2, [], []⟩], ?_, ?_⟩
    · constructor
      · simp [recsBytes, filesBytes_nil]
      · intro r hr f hf
        rcases List.mem_cons.mp hr with rfl | hr'
        · simp only at hf
          obtain ⟨p, _, hpf⟩ := forall₂_mem_right hrel hf
          obtain ⟨v, hef1, _⟩ := hpf
          exact hef1.2.2.1
        · simp only [List.mem_singleton] at hr'
          subst hr'
          simp at hf
      · intro r hr
        rcases List.mem_cons.mp hr with rfl | hr'
        · simp
        · simp only [List.mem_singleton] at hr'
          subst hr'
          simp
      · simp only [List.pairwise_cons]
        refine ⟨?_, by simp, List.Pairwise.nil⟩
        intro b hb
        simp only [List.mem_singleton] at hb
        subst hb
        simp
      · exact ⟨[⟨s.current_gen + 1, fl, []⟩], [], rfl⟩
      · -- replay of the compacted logs is the retargeted index
        show replayIdx _ = _
        rw [show replayIdx [⟨s.current_gen + 1, fl, []⟩, ⟨s.current_gen + 2, [], []⟩] =
            (applyRecs (s.current_gen + 1) ([], 0, 0, 0) fl).1 from by
          simp [replayIdx, applyRecs]]
        rw [applyRecs_sets_ascending (s.current_gen + 1) s.index fl
          (hrel.imp ?_) hsorted [] 0 0 0 (by simp)]
        · simp
        · intro p f hpf
          obtain ⟨v, hef1, _⟩ := hpf
          exact ⟨hef1.2.1, v, hef1.2.2.2⟩
    · -- the abstract map is unchanged
      show mapOfRecs _ = m
      rw [show mapOfRecs [⟨s.current_gen + 1, fl, []⟩, ⟨s.current_gen + 2, [], []⟩] =
          applyVals (fun _ => none) fl from by
        simp [mapOfRecs, applyVals]]
      refine applyVals_align s.index fl m (hrel.imp ?_) hsorted.nodup_keys _ ?_
      · intro p f hpf
        obtain ⟨v, hef1, hmv⟩ := hpf
        exact ⟨v, hef1.2.2.2, hmv⟩
      · intro k hk
        exact (good_map_none hgood k hk).symm
  · -- the compaction file is the verbatim slices of the live records
    rw [← slices_of_rel hrel]
    refine congrArg List.flatten (List.map_congr_left ?_)
    intro p hp
    obtain ⟨f0, v0, hef0, _, _⟩ := good_entry_frames hgood p hp
    obtain ⟨⟨A, C, hlook, _⟩, _⟩ := hef0
    rw [alookup_append_left (by rw [hlook]; rfl)]

/-! ### Whole-operation lemmas -/

theorem maybeCompact_good {s : KvStore} {m : String → Option String} (hg : Good s m) :
    ∃ s', maybeCompact s = (.ok (), s') ∧ Good s' m := by
  rw [maybeCompact]
  split
  · obtain ⟨fl, hc, hgood', _⟩ := compact_spec hg
    exact ⟨_, hc, hgood'⟩
  · exact ⟨s, rfl, hg⟩

theorem set_good {s : KvStore} {m : String → Option String} (hg : Good s m)
    (ts : Nat) (key value : String)
    (hok : 4 * key.length + 4 * value.length + 33 < 2 ^ 32) :
    ∃ s', set_v2 ts key value s = (.ok (), s') ∧ Good s' (upd m key (some value)) := by
  obtain ⟨s', h1, h2⟩ := maybeCompact_good (set_nc_good hg ts key value hok)
  exact ⟨s', by rw [set_v2]; exact h1, h2⟩

theorem good_lookup_none {s : KvStore} {m : String → Option String} (hg : Good s m)
    {k : String} (h : alookup s.index k = none) : m k = none := by
  obtain ⟨recs, hinv, hm⟩ := hg
  have hIM := (replay_IdxMap recs hinv.wf).2
  rw [hinv.replay] at hIM
  rw [← hm]
  exact (hIM k).2 h

theorem good_lookup_some {s : KvStore} {m : String → Option String} (hg : Good s m)
    {k : String} {cp : CommandPos} (h : alookup s.index k = some cp) :
    ∃ v, m k = some v := by
  obtain ⟨recs, hinv, hm⟩ := hg
  have hIM := (replay_IdxMap recs hinv.wf).2
  rw [hinv.replay] at hIM
  obtain ⟨v, _, hmv⟩ := (hIM k).1 cp h
  exact ⟨v, hm ▸ hmv⟩

theorem remove_good {s : KvStore} {m : String → Option String} (hg : Good s m)
    (ts : Nat) (key : String) (hok : 4 * key.length + 29 < 2 ^ 32) :
    (alookup s.index key = none → remove_v2 ts key s = (.err .KeyNotFound, s)) ∧
    (∀ cp, alookup s.index key = some cp →
      ∃ s', remove_v2 ts key s = (.ok (), s') ∧ Good s' (upd m key none)) := by
  constructor
  · intro h
    exact remove_absent ts key s h
  · intro cp hcp
    obtain ⟨s2, heq, hgood2, _, _, _⟩ := remove_present_good hg ts key hok hcp
    obtain ⟨s', h1, h2⟩ := maybeCompact_good hgood2
    exact ⟨s', by rw [heq]; exact h1, h2⟩

theorem runOp_good {s : KvStore} {m : String → Option String} (hg : Good s m)
    (op : Op) (hok : OpOk op) : Good (runOp s op) (specStep m op) := by
  cases op with
  | set ts key value =>
    obtain ⟨s', h1, h2⟩ := set_good hg ts key value hok
    rw [runOp, h1]
    exact h2
  | remove ts key =>
    rcases hcp : alookup s.index key with _ | cp
    · have heq := (remove_good hg ts key hok).1 hcp
      rw [runOp, heq]
      have hmk : m key = none := good_lookup_none hg hcp
      have : specStep m (Op.remove ts key) = m := by
        funext k'
        rw [specStep]
        simp only []
        by_cases hk : k' = key
        · rw [if_pos hk, hk, hmk]
        · rw [if_neg hk]
      rw [this]
      exact hg
    · obtain ⟨s', h1, h2⟩ := (remove_good hg ts key hok).2 cp hcp
      rw [runOp, h1]
      exact h2
  | compact =>
    obtain ⟨fl, h1, h2, _⟩ := compact_spec hg
    rw [runOp, h1]
    exact h2

theorem runOps_good {s : KvStore} {m : String → Option String} (hg : Good s m)
    (ops : List Op) (hok : ∀ op ∈ ops, OpOk op) :
    Good (runOps s ops) (ops.foldl specStep m) := by
  induction ops generalizing s m with
  | nil => exact hg
  | cons op rest ih =>
    rw [runOps, List.foldl_cons, List.foldl_cons]
    exact ih (runOp_good hg op (hok op (by simp))) fun o ho => hok o (by simp [ho])

/-! ### open: sorting, replay decomposition -/

theorem gsInsert_perm (p : Nat × List Nat) (l : Logs) :
    List.Perm (gsInsert p l) (p :: l) := by
  induction l with
  | nil => exact List.Perm.refl _
  | cons q t ih =>
    rw [gsInsert]
    split
    · exact List.Perm.refl _
    · exact List.Perm.trans (List.Perm.cons q ih) (List.Perm.swap p q t)

theorem gsSort_perm (l : Logs) : List.Perm (gsSort l) l := by
  induction l with
  | nil => exact List.Perm.refl _
  | cons p t ih =>
    exact List.Perm.trans (gsInsert_perm p (gsSort t)) (List.Perm.cons p ih)

theorem gsInsert_sorted {l : Logs}
    (h : List.Pairwise (fun a b : Nat × List Nat => a.1 ≤ b.1) l) (p : Nat × List Nat) :
    List.Pairwise (fun a b : Nat × List Nat => a.1 ≤ b.1) (gsInsert p l) := by
  induction l with
  | nil => simp [gsInsert]
  | cons q t ih =>
    rw [List.pairwise_cons] at h
    rw [gsInsert]
    split
    · rename_i hle
      rw [List.pairwise_cons]
      constructor
      · intro b hb
        rcases List.mem_cons.mp hb with rfl | hb'
        · exact hle
        · exact le_trans hle (h.1 b hb')
      · exact List.pairwise_cons.mpr h
    · rename_i hgt
      push_neg at hgt
      rw [List.pairwise_cons]
      constructor
      · intro b hb
        have := (gsInsert_perm p t).mem_iff.mp hb
        rcases List.mem_cons.mp this with rfl | hb'
        · exact le_of_lt hgt
        · exact h.1 b hb'
      · exact ih h.2

theorem gsSort_sorted (l : Logs) :
    List.Pairwise (fun a b : Nat × List Nat => a.1 ≤ b.1) (gsSort l) := by
  induction l with
  | nil => simp [gsSort]
  | cons p t ih => exact gsInsert_sorted ih p

theorem gsSort_eq_of_sorted {l : Logs}
    (h : List.Pairwise (fun a b : Nat × List Nat => a.1 ≤ b.1) l) : gsSort l = l := by
  induction l with
  | nil => rfl
  | cons p t ih =>
    rw [List.pairwise_cons] at h
    rw [gsSort, ih h.2]
    cases t with
    | nil => rfl
    | cons q t' =>
      rw [gsInsert, if_pos (h.1 q (by simp))]

/-- Replay success over a directory decomposes every file into frames. -/
theorem loadAll_decomp :
    ∀ (files : Logs) (idx : Idx) (unc hs : Nat) (res : Idx × Nat × Nat),
    loadAll files idx unc hs = .ok res →
    ∃ recsD : List RecFile,
      files = recsD.map recsBytes ∧
      (∀ r ∈ recsD, ∀ f ∈ r.frames, FrameWF f) ∧
      (∀ r ∈ recsD, r.tail.length < 4) ∧
      res.1 = recsD.foldl (fun idx r => (applyRecs r.gen (idx, 0, 0, 0) r.frames).1) idx := by
  intro files
  induction files with
  | nil =>
    intro idx unc hs res h
    rw [loadAll] at h
    cases h
    exact ⟨[], rfl, by simp, by simp, rfl⟩
  | cons p t ih =>
    obtain ⟨g, file⟩ := p
    intro idx unc hs res h
    rw [loadAll] at h
    rcases hload : load_v2 g file idx with e | r1
    · rw [hload] at h
      exact absurd h (by simp)
    rw [hload] at h
    obtain ⟨idx', u, sq⟩ := r1
    obtain ⟨fs, tail, hfile, htail, hwf, hres⟩ :=
      loadAux_ok_decomp g file.length file (le_refl _) 0 idx 0 0 _ hload
    obtain ⟨recsD', hfiles', hwf', htails', hres'⟩ := ih idx' (unc + u) (max hs sq) res h
    refine ⟨⟨g, fs, tail⟩ :: recsD', ?_, ?_, ?_, ?_⟩
    · rw [List.map_cons, ← hfiles', recsBytes, hfile]
    · intro r hr f hf
      rcases List.mem_cons.mp hr with rfl | hr'
      · exact hwf f hf
      · exact hwf' r hr' f hf
    · intro r hr
      rcases List.mem_cons.mp hr with rfl | hr'
      · exact htail
      · exact htails' r hr'
    · have hidx' : idx' = (applyRecs g (idx, 0, 0, 0) fs).1 := by
        have := congrArg Prod.fst hres
        simpa [dropPos] using this
      rw [List.foldl_cons]
      rw [hidx'] at hres'
      exact hres'

/-- Replay of well-formed record files succeeds and folds the index. -/
theorem loadAll_recs (recs : List RecFile)
    (hwf : ∀ r ∈ recs, ∀ f ∈ r.frames, FrameWF f)
    (htails : ∀ r ∈ recs, r.tail.length < 4) :
    ∀ (idx : Idx) (unc hs : Nat), ∃ u2 h2,
    loadAll (recs.map recsBytes) idx unc hs =
      .ok (recs.foldl (fun idx r => (applyRecs r.gen (idx, 0, 0, 0) r.frames).1) idx,
        u2, h2) := by
  induction recs with
  | nil =>
    intro idx unc hs
    exact ⟨unc, hs, rfl⟩
  | cons r t ih =>
    intro idx unc hs
    have hload : load_v2 r.gen (filesBytes r.frames ++ r.tail) idx =
        .ok (dropPos (applyRecs r.gen (idx, 0, 0, 0) r.frames)) := by
      rw [load_v2]
      exact loadAux_frames r.gen r.frames r.tail (hwf r (by simp)) (htails r (by simp))
        0 idx 0 0
    obtain ⟨u2, h2, hrest⟩ := ih (fun q hq => hwf q (by simp [hq]))
      (fun q hq => htails q (by simp [hq]))
      (applyRecs r.gen (idx, 0, 0, 0) r.frames).1
      (unc + (applyRecs r.gen (idx, 0, 0, 0) r.frames).2.1)
      (max hs (applyRecs r.gen (idx, 0, 0, 0) r.frames).2.2.1)
    refine ⟨u2, h2, ?_⟩
    rw [List.map_cons, loadAll, show recsBytes r = (r.gen, filesBytes r.frames ++ r.tail)
      from rfl]
    rw [hload]
    rw [show dropPos (applyRecs r.gen (idx, 0, 0, 0) r.frames) =
      ((applyRecs r.gen (idx, 0, 0, 0) r.frames).1,
       (applyRecs r.gen (idx, 0, 0, 0) r.frames).2.1,
       (applyRecs r.gen (idx, 0, 0, 0) r.frames).2.2.1) from rfl]
    rw [List.foldl_cons]
    exact hrest

theorem sorted_le_getLast {l : List Nat}
    (h : List.Pairwise (fun a b : Nat => a ≤ b) l) :
    ∀ g ∈ l, g ≤ l.getLast?.getD 0 := by
  induction l with
  | nil => intro g hg; simp at hg
  | cons a t ih =>
    rw [List.pairwise_cons] at h
    intro g hg
    cases t with
    | nil =>
      simp at hg
      simp [hg]
    | cons b t' =>
      rw [List.getLast?_cons_cons]
      rcases List.mem_cons.mp hg with rfl | hg'
      · exact le_trans (h.1 b (by simp)) (ih h.2 b (by simp))
      · exact ih h.2 g hg'

/-- Adjoining the fresh, empty current log to a replayed prefix keeps the
record-level invariant and the abstract map. -/
theorem invr_extend {recsD : List RecFile} {cg : Nat} {idx : Idx} {unc : Nat}
    {cs : Option Nat}
    (hwf : ∀ r ∈ recsD, ∀ f ∈ r.frames, FrameWF f)
    (htails : ∀ r ∈ recsD, r.tail.length < 4)
    (hsort : List.Pairwise (fun a b : RecFile => a.gen < b.gen) recsD)
    (hlt : ∀ r ∈ recsD, r.gen < cg)
    (hidx : replayIdx recsD = idx) :
    InvR { logs := recsD.map recsBytes ++ [(cg, [])], current_gen := cg,
           index := idx, uncompacted := unc, current_sequence := cs }
      (recsD ++ [⟨cg, [], []⟩]) ∧
    mapOfRecs (recsD ++ [⟨cg, [], []⟩]) = mapOfRecs recsD := by
  constructor
  · have hcl : ∃ pre fs, recsD ++ [(⟨cg, [], []⟩ : RecFile)] =
        pre ++ [(⟨cg, fs, []⟩ : RecFile)] := ⟨recsD, [], rfl⟩
    refine ⟨?_, ?_, ?_, ?_, hcl, ?_⟩
    · show recsD.map recsBytes ++ [(cg, [])]
        = (recsD ++ [(⟨cg, [], []⟩ : RecFile)]).map recsBytes
      rw [List.map_append]
      rfl
    · intro r hr f hf
      rcases List.mem_append.mp hr with h | h
      · exact hwf r h f hf
      · simp at h
        subst h
        simp at hf
    · intro r hr
      rcases List.mem_append.mp hr with h | h
      · exact htails r h
      · simp at h
        subst h
        simp
    · refine List.pairwise_append.mpr ⟨hsort, by simp, ?_⟩
      intro a ha b hb
      simp at hb
      subst hb
      exact hlt a ha
    · show replayIdx (recsD ++ [(⟨cg, [], []⟩ : RecFile)]) = idx
      rw [replayIdx_append]
      exact hidx
  · rw [mapOfRecs_append]
    rfl

/-- `KvStore::open` on a directory with distinct generation numbers yields a
state satisfying the store invariant. -/
theorem open_good (files : Logs) (hnd : (files.map Prod.fst).Nodup)
    {s : KvStore} (h : openStore files = .ok s) : ∃ m, Good s m := by
  simp only [openStore] at h
  rcases hload : loadAll (gsSort files) [] 0 0 with e | r
  · rw [hload] at h
    exact absurd h (by simp)
  obtain ⟨index, unc, highest⟩ := r
  rw [hload] at h
  simp only [] at h
  rw [Except.ok.injEq] at h
  obtain ⟨cg, hcgdef⟩ : ∃ cg, ((gsSort files).map Prod.fst).getLast?.getD 0 + 1 = cg :=
    ⟨_, rfl⟩
  rw [hcgdef] at h
  obtain ⟨recsD, hfiles, hwf, htails, hidx⟩ :=
    loadAll_decomp (gsSort files) [] 0 0 _ hload
  have hgens_eq : (gsSort files).map Prod.fst = recsD.map RecFile.gen := by
    rw [hfiles, List.map_map]
    rfl
  have hsorted : List.Pairwise (fun a b : Nat => a ≤ b) ((gsSort files).map Prod.fst) :=
    List.pairwise_map.mpr (gsSort_sorted files)
  have hnd' : ((gsSort files).map Prod.fst).Nodup :=
    ((gsSort_perm files).map Prod.fst).nodup_iff.mpr hnd
  have hstrict : List.Pairwise (fun a b : RecFile => a.gen < b.gen) recsD := by
    have h1 : List.Pairwise (fun a b : Nat => a ≤ b) (recsD.map RecFile.gen) :=
      hgens_eq ▸ hsorted
    have h2 : List.Pairwise (fun a b : Nat => a ≠ b) (recsD.map RecFile.gen) :=
      hgens_eq ▸ hnd'
    have h3 := (h1.and h2).imp (fun h => lt_of_le_of_ne h.1 h.2)
    exact List.pairwise_map.mp h3
  have hlt : ∀ r ∈ recsD, r.gen < cg := by
    intro r hr
    have hm : r.gen ∈ (gsSort files).map Prod.fst := by
      rw [hgens_eq]
      exact List.mem_map_of_mem _ hr
    have := sorted_le_getLast hsorted _ hm
    omega
  have hreplay : replayIdx recsD = index := by
    rw [replayIdx]
    exact hidx.symm
  obtain ⟨hinv, hmap⟩ :=
    @invr_extend recsD cg index unc (some highest) hwf htails hstrict hlt hreplay
  refine ⟨mapOfRecs (recsD ++ [(⟨cg, [], []⟩ : RecFile)]),
    recsD ++ [(⟨cg, [], []⟩ : RecFile)], ?_, rfl⟩
  rw [← h, hfiles]
  exact hinv

/-- Closing and reopening a store from its on-disk logs succeeds, restores
the same index, and keeps the same observable map. -/
theorem reopen_good {s : KvStore} {m : String → Option String} (hg : Good s m) :
    ∃ s', openStore s.logs = .ok s' ∧ s'.index = s.index ∧ Good s' m := by
  obtain ⟨recs, hinv, hmap⟩ := hg
  have hsorted : List.Pairwise (fun a b : Nat × List Nat => a.1 ≤ b.1)
      (recs.map recsBytes) :=
    List.pairwise_map.mpr (hinv.gens_sorted.imp (fun h => le_of_lt h))
  have hfix : gsSort s.logs = recs.map recsBytes := by
    rw [hinv.logs_eq]
    exact gsSort_eq_of_sorted hsorted
  obtain ⟨u2, h2, hload⟩ := loadAll_recs recs hinv.wf hinv.tails [] 0 0
  have hload' : loadAll (recs.map recsBytes) [] 0 0 = .ok (s.index, u2, h2) := by
    rw [← hinv.replay, replayIdx]
    exact hload
  have hcg : ((recs.map recsBytes).map Prod.fst).getLast?.getD 0 + 1 =
      s.current_gen + 1 := by
    obtain ⟨pre, fs, hdecomp⟩ := hinv.cur_last
    rw [hdecomp]
    simp [List.getLast?_concat, recsBytes]
  have hlt : ∀ r ∈ recs, r.gen < s.current_gen + 1 := by
    intro r hr
    have := recs_gens_le hinv r hr
    omega
  obtain ⟨hinv', hmap'⟩ := @invr_extend recs (s.current_gen + 1) s.index u2 (some h2)
    hinv.wf hinv.tails hinv.gens_sorted hlt hinv.replay
  refine ⟨{ logs := recs.map recsBytes ++ [(s.current_gen + 1, [])],
            current_gen := s.current_gen + 1,
            index := s.index,
            uncompacted := u2,
            current_sequence := some h2 }, ?_, rfl, ?_⟩
  · simp only [openStore, hfix, hload', hcg]
  · exact ⟨recs ++ [⟨s.current_gen + 1, [], []⟩], hinv', hmap'.trans hmap⟩

/-! ### A general reduction of `get_v2` at a decodable record -/

/-- When the index points at a framed record that decodes, `get_v2`
reduces to the checksum check followed by the command-variant match. -/
theorem get_v2_layout {s : KvStore} {k : String} {cp : CommandPos}
    {file A body C : List Nat} {cmd : KvsCommand}
    (hik : alookup s.index k = some cp)
    (hlg : alookup s.logs cp.gen = some file)
    (hfile : file = A ++ (leBytes 4 body.length ++ body) ++ C)
    (hpos : A.length = cp.pos)
    (hblen : body.length < 2 ^ 32)
    (hdec : decode body = some cmd) :
    get_v2 s k =
      if cmd.verify_checksum then
        match cmd.command with
        | some (.set _ v) => .ok (some v)
        | _ => .err .UnexpectedCommandType
      else .err .CorruptedData := by
  have hfile1 : file = A ++ leBytes 4 body.length ++ (body ++ C) := by
    rw [hfile]
    simp [List.append_assoc]
  have h1 : readExact file cp.pos 4 = some (leBytes 4 body.length) :=
    readExact_at' hfile1 hpos (leBytes_length 4 _)
  have hlv : leVal (leBytes 4 body.length) = body.length := by
    rw [leVal_leBytes]
    exact Nat.mod_eq_of_lt (by exact hblen)
  have hfile2 : file = (A ++ leBytes 4 body.length) ++ body ++ C := by
    rw [hfile]
    simp [List.append_assoc]
  have hpos2 : (A ++ leBytes 4 body.length).length = cp.pos + 4 := by
    simp [hpos, leBytes_length]
  have h2 : readExact file (cp.pos + 4) body.length = some body :=
    readExact_at' hfile2 hpos2 rfl
  rw [get_v2]
  simp only [hik, hlg, h1, hlv, h2, hdec]

/-- Every generation mentioned by an index entry of a good state has a log
(hence an open reader) registered for it. -/
theorem good_reader {s : KvStore} {m : String → Option String} (hg : Good s m) :
    ∀ p ∈ s.index, (alookup s.logs p.2.gen).isSome := by
  intro p hp
  obtain ⟨recs, hinv, hm⟩ := hg
  have hIM := (replay_IdxMap recs hinv.wf).2
  rw [hinv.replay] at hIM
  have hnd : (s.index.map Prod.fst).Nodup := by
    have := good_index_sorted ⟨recs, hinv, hm⟩
    exact this.nodup_keys
  obtain ⟨a, cp⟩ := p
  have hik : alookup s.index a = some cp := alookup_of_mem_nodup hnd hp
  obtain ⟨v, hloc, _⟩ := (hIM a).1 cp hik
  obtain ⟨r, hr, hgen, _⟩ := hloc
  have : alookup s.logs cp.gen = some (filesBytes r.frames ++ r.tail) := by
    rw [hinv.logs_eq]
    exact hgen ▸ alookup_recs hinv.gens_sorted hr
  simp [this]

/-! ### Concrete states for witnesses -/

/-- The store `open` yields on an empty directory. -/
def s0W : KvStore := ⟨[(1, [])], 1, [], 0, some 0⟩

/-- Body bytes of a concrete Set record. -/
def wBody : List Nat := encode (KvsCommand.set "a" "b" 1 0)

/-- A one-record log file holding that Set record. -/
def wFile : List Nat := [] ++ (leBytes 4 wBody.length ++ wBody) ++ []

/-- A store whose index points at that Set record. -/
def wStore : KvStore := ⟨[(1, wFile)], 1, [("a", ⟨1, 0, 4 + wBody.length⟩)], 0, some 1⟩

/-- Body bytes of a concrete Remove record. -/
def wrBody : List Nat := encode (KvsCommand.remove "a" 1 0)

/-- A one-record log file holding that Remove record. -/
def wrFile : List Nat := [] ++ (leBytes 4 wrBody.length ++ wrBody) ++ []

/-- A store whose index (wrongly) points at that Remove record. -/
def wrStore : KvStore := ⟨[(1, wrFile)], 1, [("a", ⟨1, 0, 4 + wrBody.length⟩)], 0, some 1⟩

instance decOpOk : (op : Op) → Decidable (OpOk op)
  | .set _ k v => inferInstanceAs (Decidable (4 * k.length + 4 * v.length + 33 < 2 ^ 32))
  | .remove _ k => inferInstanceAs (Decidable (4 * k.length + 29 < 2 ^ 32))
  | .compact => inferInstanceAs (Decidable True)

theorem good_init : Good s0W (fun _ => none) := by
  refine ⟨[⟨1, [], []⟩], ?_, rfl⟩
  have hcl : ∃ pre fs, [(⟨1, [], []⟩ : RecFile)] = pre ++ [⟨1, fs, []⟩] := ⟨[], [], rfl⟩
  refine ⟨rfl, ?_, ?_, ?_, hcl, rfl⟩
  · intro r hr f hf
    simp at hr
    subst hr
    simp at hf
  · intro r hr
    simp at hr
    subst hr
    simp
  · simp

/-! ### The claims -/

/-- Claim C1: starting from a store opened on an empty directory, after any
sequence of operations within the format's record-size bound, `get k`
returns `some` of the value of the last set of `k` not followed by a remove
of `k`, and `none` when there is no such set. -/
theorem c1_get_follows_history {s0 : KvStore} (hopen : openStore [] = .ok s0)
    (ops : List Op) (hok : ∀ op ∈ ops, OpOk op) (k : String) :
    get_v2 (runOps s0 ops) k = .ok (specMap ops k) := by
  have h0 : openStore [] = .ok s0W := rfl
  rw [h0] at hopen
  injection hopen with h
  subst h
  exact get_good (runOps_good good_init ops hok) k

/-- Witness for C1: a set, an overriding remove, then a new set. -/
theorem c1_get_follows_history_witness :
    openStore [] = .ok s0W ∧
    (∀ op ∈ [Op.set 5 "a" "b", Op.remove 6 "a", Op.set 7 "a" "c"], OpOk op) ∧
    get_v2 (runOps s0W [Op.set 5 "a" "b", Op.remove 6 "a", Op.set 7 "a" "c"]) "a" =
      .ok (specMap [Op.set 5 "a" "b", Op.remove 6 "a", Op.set 7 "a" "c"] "a") :=
  ⟨rfl, by decide,
    c1_get_follows_history rfl [Op.set 5 "a" "b", Op.remove 6 "a", Op.set 7 "a" "c"]
      (by decide) "a"⟩

/-- Claim C2: for every store reached by opening a directory (with distinct
generation numbers) and running any operation sequence, reopening from the
on-disk logs succeeds, restores exactly the pre-close index, and yields
identical `get` behaviour on every key. -/
theorem c2_reopen_preserves_gets {files : Logs} (hnd : (files.map Prod.fst).Nodup)
    {s0 : KvStore} (hopen : openStore files = .ok s0)
    (ops : List Op) (hok : ∀ op ∈ ops, OpOk op) :
    ∃ s', openStore (runOps s0 ops).logs = .ok s' ∧
      s'.index = (runOps s0 ops).index ∧
      ∀ k, get_v2 s' k = get_v2 (runOps s0 ops) k := by
  obtain ⟨m0, hg0⟩ := open_good files hnd hopen
  have hg1 := runOps_good hg0 ops hok
  obtain ⟨s', ho, hidx, hg'⟩ := reopen_good hg1
  refine ⟨s', ho, hidx, fun k => ?_⟩
  rw [get_good hg' k, get_good hg1 k]

/-- Witness for C2: reopen after one set on the initially empty store. -/
theorem c2_reopen_preserves_gets_witness :
    (([] : Logs).map Prod.fst).Nodup ∧
    openStore [] = .ok s0W ∧
    (∀ op ∈ [Op.set 5 "a" "b"], OpOk op) ∧
    (∃ s', openStore (runOps s0W [Op.set 5 "a" "b"]).logs = .ok s' ∧
      s'.index = (runOps s0W [Op.set 5 "a" "b"]).index ∧
      ∀ k, get_v2 s' k = get_v2 (runOps s0W [Op.set 5 "a" "b"]) k) :=
  ⟨by simp, rfl, by decide,
    @c2_reopen_preserves_gets [] (by simp) s0W rfl [Op.set 5 "a" "b"] (by decide)⟩

/-- Claim C3: on every reachable (good) state, compaction succeeds, leaves
`get` unchanged on every key, retargets each index entry to the compaction
generation at consecutive offsets, and the compaction file holds exactly
the indexed records' framed bytes copied verbatim, concatenated in index
order. -/
theorem c3_compaction_preserves_gets {s : KvStore} {m : String → Option String}
    (hg : Good s m) :
    ∃ s', compact s = (.ok (), s') ∧
      (∀ k, get_v2 s' k = get_v2 s k) ∧
      s'.index = retarget (s.current_gen + 1) 0 s.index ∧
      alookup s'.logs (s.current_gen + 1) =
        some ((s.index.map fun p =>
          (((alookup s.logs p.2.gen).getD []).drop p.2.pos).take p.2.len).flatten) := by
  obtain ⟨fl, hc, hg', hbytes⟩ := compact_spec hg
  refine ⟨_, hc, fun k => ?_, rfl, ?_⟩
  · rw [get_good hg' k, get_good hg k]
  · show alookup [(s.current_gen + 1, filesBytes fl), (s.current_gen + 2, [])]
      (s.current_gen + 1) = _
    rw [alookup, if_pos rfl, hbytes]

/-- Witness for C3 at the freshly opened store. -/
theorem c3_compaction_preserves_gets_witness :
    Good s0W (fun _ => none) ∧
    ∃ s', compact s0W = (.ok (), s') ∧
      (∀ k, get_v2 s' k = get_v2 s0W k) ∧
      s'.index = retarget (s0W.current_gen + 1) 0 s0W.index ∧
      alookup s'.logs (s0W.current_gen + 1) =
        some ((s0W.index.map fun p =>
          (((alookup s0W.logs p.2.gen).getD []).drop p.2.pos).take p.2.len).flatten) :=
  ⟨good_init, c3_compaction_preserves_gets good_init⟩

/-- Claim C4: when `uncompacted` exceeds the threshold after a set,
compaction is invoked; and `compact` ends in exactly the described state:
live records written into generation `current_gen + 1`, `current_gen + 2`
the new current generation, every older generation dropped from the
registry, and `uncompacted` reset to zero. -/
theorem c4_compact_steps {s : KvStore} {m : String → Option String} (hg : Good s m) :
    (∀ ts k v, (set_v2_nc ts k v s).uncompacted > COMPACTION_THRESHOLD →
      set_v2 ts k v s = compact (set_v2_nc ts k v s)) ∧
    ∃ bytes, compact s = (.ok (),
      ⟨[(s.current_gen + 1, bytes), (s.current_gen + 2, [])],
        s.current_gen + 2,
        retarget (s.current_gen + 1) 0 s.index,
        0,
        s.current_sequence⟩) := by
  constructor
  · intro ts k v h
    rw [set_v2, maybeCompact, if_pos h]
  · obtain ⟨fl, hc, _, _⟩ := compact_spec hg
    exact ⟨filesBytes fl, hc⟩

/-- Witness for C4 at the freshly opened store (generation 1 is deleted,
generations 2 and 3 are created). -/
theorem c4_compact_steps_witness :
    Good s0W (fun _ => none) ∧
    ((∀ ts k v, (set_v2_nc ts k v s0W).uncompacted > COMPACTION_THRESHOLD →
      set_v2 ts k v s0W = compact (set_v2_nc ts k v s0W)) ∧
    ∃ bytes, compact s0W = (.ok (),
      ⟨[(s0W.current_gen + 1, bytes), (s0W.current_gen + 2, [])],
        s0W.current_gen + 2,
        retarget (s0W.current_gen + 1) 0 s0W.index,
        0,
        s0W.current_sequence⟩)) :=
  ⟨good_init, c4_compact_steps good_init⟩

/-- Claim C5: staleness accounting. A set overwriting an existing entry
adds the old entry's `len` to `uncompacted` (and a fresh set adds nothing);
a successful remove routes through the compaction check with `uncompacted`
increased by the removed entry's `len` plus the remove record's own framed
length; and a set triggers compaction exactly when the updated counter
strictly exceeds `1024 * 1024` bytes. -/
theorem c5_staleness_accounting {s : KvStore} {m : String → Option String}
    (hg : Good s m) :
    COMPACTION_THRESHOLD = 1024 * 1024 ∧
    (∀ ts k v old, alookup s.index k = some old →
      (set_v2_nc ts k v s).uncompacted = s.uncompacted + old.len) ∧
    (∀ ts k v, alookup s.index k = none →
      (set_v2_nc ts k v s).uncompacted = s.uncompacted) ∧
    (∀ ts k old, alookup s.index k = some old → 4 * k.length + 29 < 2 ^ 32 →
      ∃ s2, remove_v2 ts k s = maybeCompact s2 ∧
        s2.uncompacted = s.uncompacted + old.len +
          (4 + (encode (KvsCommand.remove k
            ((s.current_sequence.getD 0 + 1) % 2 ^ 64) ts)).length)) ∧
    (∀ ts k v, set_v2 ts k v s =
      if (set_v2_nc ts k v s).uncompacted > 1024 * 1024
      then compact (set_v2_nc ts k v s) else (.ok (), set_v2_nc ts k v s)) := by
  refine ⟨rfl, ?_, ?_, ?_, ?_⟩
  · intro ts k v old h
    rw [set_v2_nc_unc]
    simp only [h]
  · intro ts k v h
    rw [set_v2_nc_unc]
    simp only [h]
  · intro ts k old hcp hok
    obtain ⟨s2, heq, _, _, _, huncomp⟩ := remove_present_good hg ts k hok hcp
    exact ⟨s2, heq, huncomp⟩
  · intro ts k v
    rw [set_v2, maybeCompact, COMPACTION_THRESHOLD]

/-- Witness for C5 at the store holding one key. -/
theorem c5_staleness_accounting_witness :
    Good (runOps s0W [Op.set 5 "a" "b"]) (specMap [Op.set 5 "a" "b"]) ∧
    (COMPACTION_THRESHOLD = 1024 * 1024 ∧
    (∀ ts k v old, alookup (runOps s0W [Op.set 5 "a" "b"]).index k = some old →
      (set_v2_nc ts k v (runOps s0W [Op.set 5 "a" "b"])).uncompacted =
        (runOps s0W [Op.set 5 "a" "b"]).uncompacted + old.len) ∧
    (∀ ts k v, alookup (runOps s0W [Op.set 5 "a" "b"]).index k = none →
      (set_v2_nc ts k v (runOps s0W [Op.set 5 "a" "b"])).uncompacted =
        (runOps s0W [Op.set 5 "a" "b"]).uncompacted) ∧
    (∀ ts k old, alookup (runOps s0W [Op.set 5 "a" "b"]).index k = some old →
      4 * k.length + 29 < 2 ^ 32 →
      ∃ s2, remove_v2 ts k (runOps s0W [Op.set 5 "a" "b"]) = maybeCompact s2 ∧
        s2.uncompacted = (runOps s0W [Op.set 5 "a" "b"]).uncompacted + old.len +
          (4 + (encode (KvsCommand.remove k
            (((runOps s0W [Op.set 5 "a" "b"]).current_sequence.getD 0 + 1) % 2 ^ 64)
            ts)).length)) ∧
    (∀ ts k v, set_v2 ts k v (runOps s0W [Op.set 5 "a" "b"]) =
      if (set_v2_nc ts k v (runOps s0W [Op.set 5 "a" "b"])).uncompacted > 1024 * 1024
      then compact (set_v2_nc ts k v (runOps s0W [Op.set 5 "a" "b"]))
      else (.ok (), set_v2_nc ts k v (runOps s0W [Op.set 5 "a" "b"])))) :=
  ⟨runOps_good good_init [Op.set 5 "a" "b"] (by decide),
    c5_staleness_accounting (runOps_good good_init [Op.set 5 "a" "b"] (by decide))⟩

/-- Claim C6: `remove k` fails with `KeyNotFound` exactly when `k` is absent
from the index; a mutation that returns an error leaves the store (in
particular the index) unchanged — a set within the size bound never errors —
and after such a failed remove, `get k` still returns `none`. -/
theorem c6_remove_key_not_found {s : KvStore} {m : String → Option String}
    (hg : Good s m) (ts : Nat) (k : String) (hok : 4 * k.length + 29 < 2 ^ 32) :
    (∀ v, 4 * k.length + 4 * v.length + 33 < 2 ^ 32 → (set_v2 ts k v s).1 = .ok ()) ∧
    ((remove_v2 ts k s).1 = .err .KeyNotFound ↔ alookup s.index k = none) ∧
    (∀ e, (remove_v2 ts k s).1 = .err e → (remove_v2 ts k s).2 = s) ∧
    (alookup s.index k = none → get_v2 (remove_v2 ts k s).2 k = .ok none) := by
  refine ⟨?_, ⟨?_, ?_⟩, ?_, ?_⟩
  · intro v hv
    obtain ⟨s', h1, _⟩ := set_good hg ts k v hv
    rw [h1]
  · intro h
    rcases hcp : alookup s.index k with _ | cp
    · rfl
    · obtain ⟨s', heq, _⟩ := (remove_good hg ts k hok).2 cp hcp
      rw [heq] at h
      exact absurd h (by simp)
  · intro h
    rw [remove_absent ts k s h]
  · intro e he
    rcases hcp : alookup s.index k with _ | cp
    · rw [remove_absent ts k s hcp]
    · obtain ⟨s', heq, _⟩ := (remove_good hg ts k hok).2 cp hcp
      rw [heq] at he
      exact absurd he (by simp)
  · intro h
    rw [remove_absent ts k s h]
    show get_v2 s k = .ok none
    rw [get_good hg k, good_lookup_none hg h]

/-- Witness for C6 at the freshly opened store with an absent key. -/
theorem c6_remove_key_not_found_witness :
    Good s0W (fun _ => none) ∧ 4 * ("a" : String).length + 29 < 2 ^ 32 ∧
    ((∀ v, 4 * ("a" : String).length + 4 * v.length + 33 < 2 ^ 32 →
      (set_v2 0 "a" v s0W).1 = .ok ()) ∧
    ((remove_v2 0 "a" s0W).1 = .err .KeyNotFound ↔ alookup s0W.index "a" = none) ∧
    (∀ e, (remove_v2 0 "a" s0W).1 = .err e → (remove_v2 0 "a" s0W).2 = s0W) ∧
    (alookup s0W.index "a" = none → get_v2 (remove_v2 0 "a" s0W).2 "a" = .ok none)) :=
  ⟨good_init, by decide, c6_remove_key_not_found good_init 0 "a" (by decide)⟩

/-- Claim C7 (amended): replay of one log terminates normally exactly when,
after a maximal prefix of well-formed framed records, fewer than four bytes
remain — the 4-byte length-prefix read hits end of file — which includes,
beyond the claim as stated, files with one to three trailing garbage bytes;
in every other case (short body read, undecodable body, absent command
variant or checksum mismatch) replay returns an error. -/
theorem c7_replay_termination (gen : Nat) (file : List Nat) :
    (∃ res, load_v2 gen file [] = .ok res) ↔
    (∃ fs tail, file = filesBytes fs ++ tail ∧ tail.length < 4 ∧
      ∀ f ∈ fs, FrameWF f) := by
  constructor
  · rintro ⟨res, h⟩
    rw [load_v2] at h
    obtain ⟨fs, tail, h1, h2, h3, _⟩ :=
      loadAux_ok_decomp gen file.length file (le_refl _) 0 [] 0 0 res h
    exact ⟨fs, tail, h1, h2, h3⟩
  · rintro ⟨fs, tail, h1, h2, h3⟩
    subst h1
    rw [load_v2]
    exact ⟨_, loadAux_frames gen fs tail h3 h2 0 [] 0 0⟩

/-- Claim C7, counterexample to the claim as stated: the two-byte file
`[0, 0]` does not end at a record boundary (no well-formed frame list has
these bytes, every frame being at least four bytes long), yet replay
terminates normally instead of reporting an error. -/
theorem c7_counterexample :
    load_v2 1 [0, 0] [] = .ok ([], 0, 0) ∧
    ¬ ∃ fs : List FrameR, (∀ f ∈ fs, FrameWF f) ∧ filesBytes fs = [0, 0] := by
  constructor
  · rw [load_v2]
    exact loadAux_short 1 [0, 0] (by decide) 0 [] 0 0
  · rintro ⟨fs, hwf, heq⟩
    cases fs with
    | nil => simp [filesBytes] at heq
    | cons f t =>
      have h4 := (hwf f (by simp)).1
      have hlen := congrArg List.length heq
      rw [filesBytes_cons] at hlen
      simp [frameBytes, h4] at hlen
      omega

set_option maxRecDepth 20000

/-- Claim C8: the stored checksum of every record the store writes is the
CRC-32 (IEEE polynomial, witnessed by the standard check value) of the
UTF-8 bytes of the key followed, for Set, by the UTF-8 bytes of the value —
independent of the header fields — and `get` returns `CorruptedData`
exactly when the stored checksum of the decoded record at the indexed
position differs from the recomputed one. -/
theorem c8_checksum_coverage {s : KvStore} {k : String} {cp : CommandPos}
    {file A body C : List Nat} {cmd : KvsCommand} {c : Command}
    (hik : alookup s.index k = some cp)
    (hlg : alookup s.logs cp.gen = some file)
    (hfile : file = A ++ (leBytes 4 body.length ++ body) ++ C)
    (hpos : A.length = cp.pos)
    (hblen : body.length < 2 ^ 32)
    (hdec : decode body = some cmd)
    (hc : cmd.command = some c) :
    (∀ key value, (Command.set key value).calculate_checksum =
      crc32 (utf8Bytes key ++ utf8Bytes value)) ∧
    (∀ key, (Command.remove key).calculate_checksum = crc32 (utf8Bytes key)) ∧
    (∀ key value seq ts, (KvsCommand.set key value seq ts).checksum =
      crc32 (utf8Bytes key ++ utf8Bytes value)) ∧
    (∀ key seq ts, (KvsCommand.remove key seq ts).checksum =
      crc32 (utf8Bytes key)) ∧
    crc32 (utf8Bytes "123456789") = 0xCBF43926 ∧
    (get_v2 s k = .err .CorruptedData ↔ cmd.checksum ≠ c.calculate_checksum) := by
  refine ⟨fun _ _ => rfl, fun _ => rfl, fun _ _ _ _ => rfl, fun _ _ _ => rfl,
    by decide, ?_⟩
  rw [get_v2_layout hik hlg hfile hpos hblen hdec]
  by_cases h : cmd.checksum = c.calculate_checksum
  · have hvt : cmd.verify_checksum = true := by
      simp [KvsCommand.verify_checksum, hc, h]
    cases c with
    | set key value => simp [hvt, hc, h]
    | remove key => simp [hvt, hc, h]
  · have hvf : cmd.verify_checksum = false := by
      simp [KvsCommand.verify_checksum, hc, h]
    simp [hvf, h]

/-- Witness for C8 at a concrete Set record. -/
theorem c8_checksum_coverage_witness :
    alookup wStore.index "a" = some ⟨1, 0, 4 + wBody.length⟩ ∧
    alookup wStore.logs 1 = some wFile ∧
    wFile = [] ++ (leBytes 4 wBody.length ++ wBody) ++ [] ∧
    ([] : List Nat).length = 0 ∧
    wBody.length < 2 ^ 32 ∧
    decode wBody = some (KvsCommand.set "a" "b" 1 0) ∧
    (KvsCommand.set "a" "b" 1 0).command = some (Command.set "a" "b") ∧
    ((∀ key value, (Command.set key value).calculate_checksum =
      crc32 (utf8Bytes key ++ utf8Bytes value)) ∧
    (∀ key, (Command.remove key).calculate_checksum = crc32 (utf8Bytes key)) ∧
    (∀ key value seq ts, (KvsCommand.set key value seq ts).checksum =
      crc32 (utf8Bytes key ++ utf8Bytes value)) ∧
    (∀ key seq ts, (KvsCommand.remove key seq ts).checksum =
      crc32 (utf8Bytes key)) ∧
    crc32 (utf8Bytes "123456789") = 0xCBF43926 ∧
    (get_v2 wStore "a" = .err .CorruptedData ↔
      (KvsCommand.set "a" "b" 1 0).checksum ≠
        (Command.set "a" "b").calculate_checksum)) :=
  ⟨rfl, rfl, rfl, rfl, by decide, rfl, rfl,
    c8_checksum_coverage rfl rfl rfl rfl (by decide) rfl rfl⟩

/-- Claim C9: when the index maps a key to a position whose record decodes
and passes checksum verification but carries a Remove rather than a Set,
`get` returns the `UnexpectedCommandType` error rather than a value. -/
theorem c9_unexpected_command_type {s : KvStore} {k k' : String} {cp : CommandPos}
    {file A body C : List Nat} {cmd : KvsCommand}
    (hik : alookup s.index k = some cp)
    (hlg : alookup s.logs cp.gen = some file)
    (hfile : file = A ++ (leBytes 4 body.length ++ body) ++ C)
    (hpos : A.length = cp.pos)
    (hblen : body.length < 2 ^ 32)
    (hdec : decode body = some cmd)
    (hver : cmd.verify_checksum = true)
    (hc : cmd.command = some (.remove k')) :
    get_v2 s k = .err .UnexpectedCommandType := by
  rw [get_v2_layout hik hlg hfile hpos hblen hdec]
  simp [hver, hc]

/-- Witness for C9 at a concrete Remove record behind an index entry. -/
theorem c9_unexpected_command_type_witness :
    alookup wrStore.index "a" = some ⟨1, 0, 4 + wrBody.length⟩ ∧
    alookup wrStore.logs 1 = some wrFile ∧
    wrFile = [] ++ (leBytes 4 wrBody.length ++ wrBody) ++ [] ∧
    ([] : List Nat).length = 0 ∧
    wrBody.length < 2 ^ 32 ∧
    decode wrBody = some (KvsCommand.remove "a" 1 0) ∧
    (KvsCommand.remove "a" 1 0).verify_checksum = true ∧
    (KvsCommand.remove "a" 1 0).command = some (Command.remove "a") ∧
    get_v2 wrStore "a" = .err .UnexpectedCommandType :=
  ⟨rfl, rfl, rfl, rfl, by decide, rfl, by decide, rfl,
    c9_unexpected_command_type rfl rfl rfl rfl (by decide) rfl (by decide) rfl⟩

/-- Claim C10: in every state reachable by open followed by any operation
sequence, every generation an index entry mentions has a registered log
(reader), and neither the reader lookup in `get` nor the one in `compact`
can panic. -/
theorem c10_reader_present_no_panic {files : Logs} (hnd : (files.map Prod.fst).Nodup)
    {s0 : KvStore} (hopen : openStore files = .ok s0)
    (ops : List Op) (hok : ∀ op ∈ ops, OpOk op) :
    (∀ p ∈ (runOps s0 ops).index,
      (alookup (runOps s0 ops).logs p.2.gen).isSome) ∧
    (∀ k, get_v2 (runOps s0 ops) k ≠ .panicked) ∧
    (compact (runOps s0 ops)).1 ≠ .panicked := by
  obtain ⟨m0, hg0⟩ := open_good files hnd hopen
  have hg := runOps_good hg0 ops hok
  refine ⟨good_reader hg, fun k => ?_, ?_⟩
  · rw [get_good hg k]
    exact fun hcon => Outcome.noConfusion hcon
  · obtain ⟨fl, hc, _, _⟩ := compact_spec hg
    rw [hc]
    exact fun hcon => Outcome.noConfusion hcon

/-- Witness for C10 after one set on the initially empty store. -/
theorem c10_reader_present_no_panic_witness :
    (([] : Logs).map Prod.fst).Nodup ∧
    openStore [] = .ok s0W ∧
    (∀ op ∈ [Op.set 5 "a" "b"], OpOk op) ∧
    ((∀ p ∈ (runOps s0W [Op.set 5 "a" "b"]).index,
      (alookup (runOps s0W [Op.set 5 "a" "b"]).logs p.2.gen).isSome) ∧
    (∀ k, get_v2 (runOps s0W [Op.set 5 "a" "b"]) k ≠ .panicked) ∧
    (compact (runOps s0W [Op.set 5 "a" "b"])).1 ≠ .panicked) :=
  ⟨by simp, rfl, by decide,
    @c10_reader_present_no_panic [] (by simp) s0W rfl [Op.set 5 "a" "b"] (by decide)⟩

end Kvs
